import Mathlib

/-!
Verification of the libnu sorting engine (sort.c / sort.h).

The C code is shallowly embedded: the element array becomes a function
`Nat → α` (elements are opaque fixed-size byte blocks, compared only through
the caller comparator and moved only wholesale, so byte-level state collapses
to element-level state), the comparator becomes `α → α → Int`, null pointers
become explicit Boolean flags, and the per-call NU_MALLOC outcome inside
insertion_sort becomes an oracle `Nat → Bool` indexed by insertion-call
number.  The explicit work stack of introsort_impl becomes a `List Frame`
whose head is the top of the stack, and the dispatch loop is fuel-indexed,
returning `none` only when fuel runs out.  Every iteration is logged so that
temporal claims about the dispatcher can be stated.
-/

set_option maxRecDepth 8000

namespace Nu

universe u

variable {α : Type u}

/-- A pending work-stack frame of introsort_impl: an inclusive range with its depth. -/
structure Frame where
  low : Nat
  high : Nat
  depth : Nat
deriving DecidableEq, Repr

/-- Pointwise update of a function array, modelling a single element write. -/
def updF (arr : Nat → α) (i : Nat) (v : α) : Nat → α :=
  fun k => if k = i then v else arr k

/-- Shallow embedding of swap_bytes from sort.c: exchanges the elements at i and j. -/
def swap (arr : Nat → α) (i j : Nat) : Nat → α :=
  fun k => if k = i then arr j else if k = j then arr i else arr k

/-- Fuel-indexed helper for floor_log2; any fuel at least n computes the exact value. -/
def fl2go : Nat → Nat → Nat
  | 0, _ => 0
  | f+1, n => if n / 2 = 0 then 0 else fl2go f (n / 2) + 1

/-- Shallow embedding of floor_log2 from sort.c. -/
def floor_log2 (n : Nat) : Nat := fl2go n n

/-- Inner while loop of insertion_sort from sort.c: shift greater elements one
slot right, then write the key at the insertion point. -/
def insShift (cmp : α → α → Int) (low : Nat) (key : α) : Nat → (Nat → α) → (Nat → α)
  | 0, arr => updF arr 0 key
  | j+1, arr =>
    if low < j + 1 ∧ 0 < cmp (arr j) key then
      insShift cmp low key j (updF arr (j+1) (arr j))
    else
      updF arr (j+1) key

/-- Outer for loop of insertion_sort over i = low+1 .. high; the first argument
counts the remaining iterations high + 1 - i. -/
def insLoop (cmp : α → α → Int) (low : Nat) : Nat → Nat → (Nat → α) → (Nat → α)
  | 0, _, arr => arr
  | s+1, i, arr => insLoop cmp low s (i+1) (insShift cmp low (arr i) i arr)

/-- Shallow embedding of insertion_sort from sort.c; ok models whether the
NU_MALLOC of the one-element key buffer succeeded. -/
def insertion_sort (cmp : α → α → Int) (ok : Bool) (arr : Nat → α) (low high : Nat) :
    Nat → α :=
  if ok then insLoop cmp low (high - low) (low + 1) arr else arr

/-- The swap_idx computed by one heapify iteration of sort.c: the first
conditional prefers the left child, the second the right child. -/
def siftTarget (cmp : α → α → Int) (arr : Nat → α) (off root e : Nat) : Nat :=
  let child := 2 * root + 1
  let s1 := if cmp (arr (off + root)) (arr (off + child)) < 0 then child else root
  if child + 1 ≤ e ∧ cmp (arr (off + s1)) (arr (off + (child + 1))) < 0 then child + 1 else s1

/-- Sift-down loop of heapify from sort.c, fuel-indexed; off is the absolute
index of heap slot 0 and e the last heap slot. -/
def heapifyGo (cmp : α → α → Int) (off e : Nat) : Nat → Nat → (Nat → α) → (Nat → α)
  | 0, _, arr => arr
  | f+1, root, arr =>
    if 2 * root + 1 ≤ e then
      let s2 := siftTarget cmp arr off root e
      if s2 = root then arr
      else heapifyGo cmp off e f s2 (swap arr (off + root) (off + s2))
    else arr

/-- Shallow embedding of heapify from sort.c. -/
def heapify (cmp : α → α → Int) (arr : Nat → α) (off root e : Nat) : Nat → α :=
  heapifyGo cmp off e (e + 1) root arr

/-- Build phase of heapsort from sort.c: heapify at s, s-1, ..., 0. -/
def heapBuild (cmp : α → α → Int) (off e : Nat) : Nat → (Nat → α) → (Nat → α)
  | 0, arr => heapify cmp arr off 0 e
  | s+1, arr => heapBuild cmp off e s (heapify cmp arr off (s+1) e)

/-- Extraction phase of heapsort from sort.c: swap the root with the last
unsorted slot, shrink the heap, and sift the new root down. -/
def heapExtract (cmp : α → α → Int) (off : Nat) : Nat → (Nat → α) → (Nat → α)
  | 0, arr => arr
  | e+1, arr => heapExtract cmp off e (heapify cmp (swap arr off (off + (e+1))) off 0 e)

/-- Shallow embedding of heapsort from sort.c on the inclusive range low..high.
The dispatcher only invokes it with at least 16 elements, where the size_t
expressions (count-2)/2 and count-1 do not wrap, so Nat arithmetic is exact. -/
def heapsort (cmp : α → α → Int) (arr : Nat → α) (low high : Nat) : Nat → α :=
  let count := high - low + 1
  heapExtract cmp low (count - 1) (heapBuild cmp low (count - 1) ((count - 2) / 2) arr)

/-- Lomuto scan loop of partition from sort.c; the first numeric argument
counts the remaining iterations high - j. -/
def lomScan (cmp : α → α → Int) (v : α) : Nat → (Nat → α) → Nat → Nat → ((Nat → α) × Nat)
  | 0, arr, i, _ => (arr, i)
  | s+1, arr, i, j =>
    if cmp (arr j) v ≤ 0 then lomScan cmp v s (swap arr i j) (i+1) (j+1)
    else lomScan cmp v s arr i (j+1)

/-- Shallow embedding of partition from sort.c: relocates the midpoint pivot to
high, scans, and returns the final array together with the pivot index. -/
def partitionP (cmp : α → α → Int) (arr : Nat → α) (low high : Nat) : ((Nat → α) × Nat) :=
  let mid := low + (high - low) / 2
  let a1 := swap arr mid high
  let sc := lomScan cmp (a1 high) (high - low) a1 low low
  (swap sc.1 sc.2 high, sc.2)

/-- The decision the dispatcher takes for one popped frame. -/
inductive Dec where
  | discard : Dec
  | ins (lo hi : Nat) (ok : Bool) : Dec
  | heapLimit (lo hi : Nat) : Dec
  | heapFull (lo hi p : Nat) : Dec
  | push (lo hi p : Nat) : Dec
deriving DecidableEq, Repr

/-- One logged iteration of the dispatch loop: the popped frame, the number of
frames remaining on the stack after the pop, and the decision taken. -/
structure Log where
  frame : Frame
  rest : Nat
  dec : Dec
deriving DecidableEq, Repr

/-- Whether a decision is an insertion-sort call (which consumed an allocation). -/
def isIns : Dec → Bool
  | .ins _ _ _ => true
  | _ => false

/-- Whether a decision is a heapsort call via the depth-limit branch. -/
def isHeapLimit : Dec → Bool
  | .heapLimit _ _ => true
  | _ => false

/-- Whether a decision is a heapsort call via the stack-capacity branch. -/
def isHeapFull : Dec → Bool
  | .heapFull _ _ _ => true
  | _ => false

/-- Whether a decision pushes child frames. -/
def isPush : Dec → Bool
  | .push _ _ _ => true
  | _ => false

/-- Number of child frames a partition of lo..hi at pivot p pushes (0, 1 or 2). -/
def ftpOf (lo hi p : Nat) : Nat :=
  (if lo < p then 1 else 0) + (if p < hi then 1 else 0)

/-- The non-empty child frames pushed after a partition, topmost first: sort.c
pushes the left child and then the right child, so the right child is on top. -/
def kidsOf (lo hi d p : Nat) : List Frame :=
  (if p < hi then [⟨p+1, hi, d+1⟩] else []) ++ (if lo < p then [⟨lo, p-1, d+1⟩] else [])

/-- One iteration of the dispatch loop of introsort_impl from sort.c, acting on
the popped frame f with rest of the stack rest; cap is NU_QUICKSORT_STACK_SIZE. -/
def introStep (cmp : α → α → Int) (ok : Bool) (cap limit : Nat) (f : Frame)
    (rest : List Frame) (arr : Nat → α) : List Frame × (Nat → α) × Dec :=
  if f.high ≤ f.low then (rest, arr, .discard)
  else if f.high - f.low + 1 < 16 then
    (rest, insertion_sort cmp ok arr f.low f.high, .ins f.low f.high ok)
  else if limit ≤ f.depth then
    (rest, heapsort cmp arr f.low f.high, .heapLimit f.low f.high)
  else
    let pr := partitionP cmp arr f.low f.high
    let kids := kidsOf f.low f.high f.depth pr.2
    if cap ≤ rest.length + kids.length then
      (rest, heapsort cmp pr.1 f.low f.high, .heapFull f.low f.high pr.2)
    else
      (kids ++ rest, pr.1, .push f.low f.high pr.2)

/-- The dispatch loop of introsort_impl from sort.c, fuel-indexed and logging
every iteration; k counts the insertion-sort calls made so far and indexes the
allocation oracle. -/
def introLoop (cmp : α → α → Int) (oracle : Nat → Bool) (cap limit : Nat) :
    Nat → List Frame → (Nat → α) → Nat → Option ((Nat → α) × List Log)
  | _, [], arr, _ => some (arr, [])
  | 0, _ :: _, _, _ => none
  | fuel+1, f :: rest, arr, k =>
    let st := introStep cmp (oracle k) cap limit f rest arr
    (introLoop cmp oracle cap limit fuel st.1 st.2.1
        (k + (if isIns st.2.2 then 1 else 0))).map
      (fun p => (p.1, ⟨f, rest.length, st.2.2⟩ :: p.2))

/-- Fuel that always suffices for the dispatch loop of an n element call. -/
def nuFuel (n : Nat) : Nat := 2 * n + 4

/-- The loop run performed by a guard-passing nu_sort call on n elements. -/
def nuRun (cmp : α → α → Int) (oracle : Nat → Bool) (arr : Nat → α) (n : Nat) :
    Option ((Nat → α) × List Log) :=
  introLoop cmp oracle 64 (2 * floor_log2 n) (nuFuel n) [⟨0, n - 1, 0⟩] arr 0

/-- Shallow embedding of nu_sort from sort.c.  baseNull and cmpNull model null
base and compar pointers; oracle models NU_MALLOC success per insertion call. -/
def nu_sort (baseNull cmpNull : Bool) (cmp : α → α → Int) (oracle : Nat → Bool)
    (arr : Nat → α) (nmemb size : Nat) : Nat → α :=
  if baseNull = true ∨ cmpNull = true ∨ nmemb ≤ 1 ∨ size = 0 then arr
  else
    match nuRun cmp oracle arr nmemb with
    | some p => p.1
    | none => arr

/-- The iteration log of a nu_sort call; empty when the guard rejects the input. -/
def nuTrace (baseNull cmpNull : Bool) (cmp : α → α → Int) (oracle : Nat → Bool)
    (arr : Nat → α) (nmemb size : Nat) : List Log :=
  if baseNull = true ∨ cmpNull = true ∨ nmemb ≤ 1 ∨ size = 0 then []
  else
    match nuRun cmp oracle arr nmemb with
    | some p => p.2
    | none => []

/-- The list of elements of arr at indices lo, lo+1, ..., lo+len-1. -/
def window (arr : Nat → α) (lo len : Nat) : List α :=
  (List.range' lo len).map arr

/-- A C comparator consistent with a total preorder: flipping the arguments
flips the sign, and the induced relation cmp a b ≤ 0 is transitive. -/
structure TotalCmp (cmp : α → α → Int) : Prop where
  symm : ∀ a b, 0 ≤ cmp a b → cmp b a ≤ 0
  trans : ∀ a b c, cmp a b ≤ 0 → cmp b c ≤ 0 → cmp a c ≤ 0

/-- Adjacent-pair sortedness of arr on the inclusive index range lo..hi. -/
def SortedRange (cmp : α → α → Int) (arr : Nat → α) (lo hi : Nat) : Prop :=
  ∀ i, lo ≤ i → i < hi → cmp (arr i) (arr (i+1)) ≤ 0

/-- Parent index in the implicit binary heap of sort.c. -/
def parent (c : Nat) : Nat := (c - 1) / 2

/-- Membership in the binary subtree rooted at r, children of i at 2i+1, 2i+2. -/
inductive Desc (r : Nat) : Nat → Prop where
  | refl : Desc r r
  | left {i : Nat} : Desc r i → Desc r (2*i+1)
  | right {i : Nat} : Desc r i → Desc r (2*i+2)

/-- Two frames cover disjoint index ranges. -/
def FrDisj (f g : Frame) : Prop := f.high < g.low ∨ g.high < f.low

/-- Index i lies inside the range of some pending frame. -/
def Covered (stk : List Frame) (i : Nat) : Prop := ∃ f ∈ stk, f.low ≤ i ∧ i ≤ f.high

/-- All pending frames lie inside the bounds of an n element array. -/
def FramesBounded (n : Nat) (stk : List Frame) : Prop := ∀ f ∈ stk, f.high < n

/-- Pending frames cover pairwise disjoint ranges. -/
def FramesDisj (stk : List Frame) : Prop := stk.Pairwise FrDisj

/-- Every pair of positions not covered together by a single pending frame is
already in comparator order. -/
def PairsDone (cmp : α → α → Int) (n : Nat) (stk : List Frame) (arr : Nat → α) : Prop :=
  ∀ i j, i < j → j < n → (∀ f ∈ stk, ¬ (f.low ≤ i ∧ j ≤ f.high)) → cmp (arr i) (arr j) ≤ 0

/-- Termination measure of one frame: twice its length plus one. -/
def frameWt (f : Frame) : Nat := 2 * (f.high + 1 - f.low) + 1

/-- Termination measure of the whole work stack. -/
def stackWt (stk : List Frame) : Nat := (stk.map frameWt).sum

/-- Subtraction as computed in the C size_t type (64-bit wrap-around). -/
def sizetSub (a b : Nat) : Nat := (a + 2^64 - b) % 2^64

/-- A concrete array backed by a list, for concrete executions. -/
def arrOfList (l : List Nat) : Nat → Nat := fun k => l.getD k 0

/-- The standard three-way comparator on Nat values. -/
def natCmp : Nat → Nat → Int := fun a b => (a : Int) - (b : Int)

/-- A 23 element array on which the midpoint pivot is a range minimum for seven
consecutive partitions, driving a small frame to the depth limit 2*floor_log2 23 = 8. -/
def A23 : Nat → Nat :=
  arrOfList [11, 3, 12, 5, 13, 14, 22, 7, 8, 9, 10, 0, 2, 4, 6, 15, 16, 17, 18, 19, 20, 21, 1]

/-- A 24 element array on which eight consecutive minimum pivots drive a frame of
16 elements to the depth limit 2*floor_log2 24 = 8, triggering the heap fallback. -/
def A24 : Nat → Nat :=
  arrOfList [2, 12, 4, 13, 6, 14, 15, 23, 8, 9, 10, 0, 1, 3, 5, 7, 16, 17, 18, 19, 20, 21, 22, 11]

/-- The already sorted 16 element array 0..15. -/
def S16 : Nat → Nat := arrOfList [0, 1, 2, 3, 4, 5, 6, 7, 8, 9, 10, 11, 12, 13, 14, 15]

/-- The already sorted 20 element array 0..19. -/
def S20 : Nat → Nat :=
  arrOfList [0, 1, 2, 3, 4, 5, 6, 7, 8, 9, 10, 11, 12, 13, 14, 15, 16, 17, 18, 19]

/-! ### Basic lemmas about element updates, swaps, comparators and windows -/

theorem updF_self (arr : Nat → α) (i : Nat) (v : α) : updF arr i v i = v := by
  simp [updF]

theorem updF_ne (arr : Nat → α) {i k : Nat} (v : α) (h : k ≠ i) : updF arr i v k = arr k := by
  simp [updF, h]

theorem swap_fst (arr : Nat → α) (i j : Nat) : swap arr i j i = arr j := by
  simp [swap]

theorem swap_snd (arr : Nat → α) (i j : Nat) : swap arr i j j = arr i := by
  by_cases h : j = i
  · subst h; simp [swap]
  · simp [swap, h]

theorem swap_ne (arr : Nat → α) {i j k : Nat} (hi : k ≠ i) (hj : k ≠ j) :
    swap arr i j k = arr k := by
  simp [swap, hi, hj]

theorem TotalCmp.rfl_le {cmp : α → α → Int} (tc : TotalCmp cmp) (a : α) : cmp a a ≤ 0 := by
  by_cases h : cmp a a ≤ 0
  · exact h
  · exact tc.symm a a (by omega)

theorem TotalCmp.not_lt_le {cmp : α → α → Int} (tc : TotalCmp cmp) {a b : α}
    (h : ¬ cmp a b < 0) : cmp b a ≤ 0 :=
  tc.symm a b (by omega)

theorem TotalCmp.gt_le {cmp : α → α → Int} (tc : TotalCmp cmp) {a b : α}
    (h : 0 < cmp a b) : cmp b a ≤ 0 :=
  tc.symm a b (by omega)

theorem window_length (arr : Nat → α) (lo len : Nat) : (window arr lo len).length = len := by
  simp [window]

theorem window_succ (arr : Nat → α) (lo len : Nat) :
    window arr lo (len+1) = arr lo :: window arr (lo+1) len := by
  simp [window, List.range'_succ]

theorem window_append (arr : Nat → α) (lo a b : Nat) :
    window arr lo (a + b) = window arr lo a ++ window arr (lo + a) b := by
  rw [window, window, window, ← List.map_append, List.range'_append_1, Nat.add_comm b a]

theorem window_congr {a b : Nat → α} {lo len : Nat}
    (h : ∀ k, lo ≤ k → k < lo + len → a k = b k) : window a lo len = window b lo len := by
  apply List.map_congr_left
  intro m hm
  rw [List.mem_range'_1] at hm
  exact h m hm.1 hm.2

theorem mem_window (arr : Nat → α) {lo len k : Nat} (h1 : lo ≤ k) (h2 : k < lo + len) :
    arr k ∈ window arr lo len :=
  List.mem_map_of_mem arr (List.mem_range'_1.mpr ⟨h1, h2⟩)

theorem of_mem_window {arr : Nat → α} {lo len : Nat} {x : α} (h : x ∈ window arr lo len) :
    ∃ k, lo ≤ k ∧ k < lo + len ∧ x = arr k := by
  rcases List.mem_map.mp h with ⟨m, hm, hx⟩
  rw [List.mem_range'_1] at hm
  exact ⟨m, hm.1, hm.2, hx.symm⟩

theorem window_split (arr : Nat → α) {lo len i : Nat} (h1 : lo ≤ i) (h2 : i < lo + len) :
    window arr lo len
      = window arr lo (i - lo) ++ arr i :: window arr (i+1) (lo + len - (i+1)) := by
  have hlen : len = (i - lo) + ((lo + len - (i+1)) + 1) := by omega
  nth_rewrite 1 [hlen]
  rw [window_append]
  have hi : lo + (i - lo) = i := by omega
  rw [hi, window_succ]

theorem perm_two_swap (A B C : List α) (a b : α) :
    (A ++ a :: (B ++ b :: C)).Perm (A ++ b :: (B ++ a :: C)) := by
  apply List.Perm.append_left
  have h1 : (a :: (B ++ b :: C)).Perm (a :: (b :: (B ++ C))) :=
    List.Perm.cons a List.perm_middle
  have h2 : (a :: (b :: (B ++ C))).Perm (b :: (a :: (B ++ C))) :=
    List.Perm.swap b a (B ++ C)
  have h3 : (b :: (a :: (B ++ C))).Perm (b :: (B ++ a :: C)) :=
    List.Perm.cons b List.perm_middle.symm
  exact (h1.trans h2).trans h3

theorem window_swap_perm (arr : Nat → α) {lo len i j : Nat}
    (h1 : lo ≤ i) (h2 : i ≤ j) (h3 : j < lo + len) :
    (window (swap arr i j) lo len).Perm (window arr lo len) := by
  rcases Nat.eq_or_lt_of_le h2 with rfl | hij
  · have he : window (swap arr i i) lo len = window arr lo len := by
      apply window_congr
      intro k _ _
      by_cases hk : k = i
      · subst hk; simp [swap]
      · simp [swap, hk]
    rw [he]
  · have hsplit1 : ∀ f : Nat → α, window f lo len
        = window f lo (i - lo) ++ f i :: window f (i+1) (lo + len - (i+1)) :=
      fun f => window_split f h1 (by omega)
    have hsplit2 : ∀ f : Nat → α, window f (i+1) (lo + len - (i+1))
        = window f (i+1) (j - (i+1)) ++ f j :: window f (j+1) ((i+1) + (lo + len - (i+1)) - (j+1)) :=
      fun f => window_split f (by omega) (by omega)
    rw [hsplit1 (swap arr i j), hsplit1 arr, hsplit2 (swap arr i j), hsplit2 arr]
    have eA : window (swap arr i j) lo (i - lo) = window arr lo (i - lo) := by
      apply window_congr
      intro k hk1 hk2
      exact swap_ne arr (by omega) (by omega)
    have eB : window (swap arr i j) (i+1) (j - (i+1)) = window arr (i+1) (j - (i+1)) := by
      apply window_congr
      intro k hk1 hk2
      exact swap_ne arr (by omega) (by omega)
    have eC : window (swap arr i j) (j+1) ((i+1) + (lo + len - (i+1)) - (j+1))
        = window arr (j+1) ((i+1) + (lo + len - (i+1)) - (j+1)) := by
      apply window_congr
      intro k hk1 hk2
      exact swap_ne arr (by omega) (by omega)
    rw [eA, eB, eC, swap_fst, swap_snd]
    exact perm_two_swap _ _ _ (arr j) (arr i)

theorem window_perm_mem {a b : Nat → α} {lo len : Nat}
    (hp : (window a lo len).Perm (window b lo len)) {k : Nat} (h1 : lo ≤ k)
    (h2 : k < lo + len) : ∃ m, lo ≤ m ∧ m < lo + len ∧ a k = b m := by
  have hmem : a k ∈ window b lo len := hp.mem_iff.mp (mem_window a h1 h2)
  exact of_mem_window hmem

theorem window_perm_extend {a b : Nat → α} {lo m M : Nat} (hm : m ≤ M)
    (hp : (window a lo m).Perm (window b lo m))
    (he : ∀ k, lo + m ≤ k → k < lo + M → a k = b k) :
    (window a lo M).Perm (window b lo M) := by
  have hM : M = m + (M - m) := by omega
  rw [hM, window_append, window_append]
  have h2 : (window a (lo + m) (M - m)).Perm (window b (lo + m) (M - m)) := by
    have he2 : window a (lo + m) (M - m) = window b (lo + m) (M - m) := by
      apply window_congr
      intro k hk1 hk2
      exact he k hk1 (by omega)
    rw [he2]
  exact hp.append h2

theorem window_perm_patch {a b : Nat → α} {n lo hi : Nat} (h1 : hi < n) (h2 : lo ≤ hi)
    (hp : (window a lo (hi + 1 - lo)).Perm (window b lo (hi + 1 - lo)))
    (he : ∀ k, k < lo ∨ hi < k → a k = b k) :
    (window a 0 n).Perm (window b 0 n) := by
  have hn : n = lo + ((hi + 1 - lo) + (n - (hi + 1))) := by omega
  rw [hn, window_append, window_append, window_append, window_append]
  have e0 : (0 : Nat) + lo = lo := by omega
  rw [e0]
  have pA : (window a 0 lo).Perm (window b 0 lo) := by
    have eA : window a 0 lo = window b 0 lo := by
      apply window_congr
      intro k _ hk2
      exact he k (Or.inl (by omega))
    rw [eA]
  have hup : lo + (hi + 1 - lo) = hi + 1 := by omega
  rw [hup]
  have pC : (window a (hi+1) (n - (hi+1))).Perm (window b (hi+1) (n - (hi+1))) := by
    have eC : window a (hi+1) (n - (hi+1)) = window b (hi+1) (n - (hi+1)) := by
      apply window_congr
      intro k hk1 _
      exact he k (Or.inr (by omega))
    rw [eC]
  exact pA.append (hp.append pC)

/-! ### Partition: Lomuto scan invariant and the partition contract -/

theorem lomScan_spec (cmp : α → α → Int) (v : α) (lo hi : Nat) :
    ∀ (s : Nat) (arr : Nat → α) (i j : Nat), j + s = hi → lo ≤ i → i ≤ j →
      (∀ k, lo ≤ k → k < i → cmp (arr k) v ≤ 0) →
      (∀ k, i ≤ k → k < j → 0 < cmp (arr k) v) →
      (lo ≤ (lomScan cmp v s arr i j).2 ∧ (lomScan cmp v s arr i j).2 ≤ hi)
      ∧ (∀ k, lo ≤ k → k < (lomScan cmp v s arr i j).2 →
          cmp ((lomScan cmp v s arr i j).1 k) v ≤ 0)
      ∧ (∀ k, (lomScan cmp v s arr i j).2 ≤ k → k < hi →
          0 < cmp ((lomScan cmp v s arr i j).1 k) v)
      ∧ (∀ k, k < lo ∨ hi ≤ k → (lomScan cmp v s arr i j).1 k = arr k)
      ∧ (window (lomScan cmp v s arr i j).1 lo (hi + 1 - lo)).Perm
          (window arr lo (hi + 1 - lo)) := by
  intro s
  induction s with
  | zero =>
    intro arr i j hj hlo hij h1 h2
    refine ⟨⟨hlo, show i ≤ hi by omega⟩, h1, ?_, fun k _ => rfl, List.Perm.refl _⟩
    show ∀ k, i ≤ k → k < hi → 0 < cmp (arr k) v
    intro k hk1 hk2
    exact h2 k hk1 (by omega)
  | succ s ih =>
    intro arr i j hj hlo hij h1 h2
    by_cases hc : cmp (arr j) v ≤ 0
    · have hstep : lomScan cmp v (s+1) arr i j = lomScan cmp v s (swap arr i j) (i+1) (j+1) := by
        simp [lomScan, hc]
      rw [hstep]
      have hjhi : j < hi := by omega
      have h1' : ∀ k, lo ≤ k → k < i + 1 → cmp (swap arr i j k) v ≤ 0 := by
        intro k hk1 hk2
        by_cases hki : k = i
        · subst hki; rw [swap_fst]; exact hc
        · rw [swap_ne arr hki (by omega)]
          exact h1 k hk1 (by omega)
      have h2' : ∀ k, i + 1 ≤ k → k < j + 1 → 0 < cmp (swap arr i j k) v := by
        intro k hk1 hk2
        by_cases hkj : k = j
        · subst hkj
          rw [swap_snd]
          exact h2 i (Nat.le_refl i) (by omega)
        · rw [swap_ne arr (by omega) hkj]
          exact h2 k (by omega) (by omega)
      rcases ih (swap arr i j) (i+1) (j+1) (by omega) (by omega) (by omega) h1' h2' with
        ⟨hb, hle, hgt, hout, hperm⟩
      refine ⟨hb, hle, hgt, ?_, ?_⟩
      · intro k hk
        rw [hout k hk]
        exact swap_ne arr (by omega) (by omega)
      · exact hperm.trans (window_swap_perm arr hlo hij (by omega))
    · have hstep : lomScan cmp v (s+1) arr i j = lomScan cmp v s arr i (j+1) := by
        simp [lomScan, hc]
      rw [hstep]
      have h2' : ∀ k, i ≤ k → k < j + 1 → 0 < cmp (arr k) v := by
        intro k hk1 hk2
        by_cases hkj : k = j
        · subst hkj; omega
        · exact h2 k hk1 (by omega)
      exact ih arr i (j+1) (by omega) hlo (by omega) h1 h2'

theorem partition_spec (cmp : α → α → Int) (arr : Nat → α) {lo hi : Nat} (h : lo < hi) :
    (lo ≤ (partitionP cmp arr lo hi).2 ∧ (partitionP cmp arr lo hi).2 ≤ hi)
    ∧ (partitionP cmp arr lo hi).1 (partitionP cmp arr lo hi).2 = arr (lo + (hi - lo) / 2)
    ∧ (∀ k, lo ≤ k → k < (partitionP cmp arr lo hi).2 →
        cmp ((partitionP cmp arr lo hi).1 k)
          ((partitionP cmp arr lo hi).1 (partitionP cmp arr lo hi).2) ≤ 0)
    ∧ (∀ k, (partitionP cmp arr lo hi).2 < k → k ≤ hi →
        0 < cmp ((partitionP cmp arr lo hi).1 k)
          ((partitionP cmp arr lo hi).1 (partitionP cmp arr lo hi).2))
    ∧ (∀ k, k < lo ∨ hi < k → (partitionP cmp arr lo hi).1 k = arr k)
    ∧ (window (partitionP cmp arr lo hi).1 lo (hi + 1 - lo)).Perm
        (window arr lo (hi + 1 - lo)) := by
  have hmid1 : lo ≤ lo + (hi - lo) / 2 := by omega
  have hmid2 : lo + (hi - lo) / 2 ≤ hi := by
    have := Nat.div_le_self (hi - lo) 2
    omega
  set mid := lo + (hi - lo) / 2 with hmid
  set a1 := swap arr mid hi with ha1
  have hv : a1 hi = arr mid := by rw [ha1, swap_snd]
  rcases lomScan_spec cmp (a1 hi) lo hi (hi - lo) a1 lo lo (by omega) (Nat.le_refl lo)
      (Nat.le_refl lo) (fun k hk1 hk2 => by omega) (fun k hk1 hk2 => by omega) with
    ⟨⟨hp1, hp2⟩, hle, hgt, hout, hperm⟩
  set sc := lomScan cmp (a1 hi) (hi - lo) a1 lo lo with hsc
  have hres : partitionP cmp arr lo hi = (swap sc.1 sc.2 hi, sc.2) := by
    rw [partitionP]
  rw [hres]
  have hhi : sc.1 hi = a1 hi := hout hi (Or.inr (Nat.le_refl hi))
  have hpv : swap sc.1 sc.2 hi sc.2 = arr mid := by
    rw [swap_fst, hhi, hv]
  refine ⟨⟨hp1, hp2⟩, hpv, ?_, ?_, ?_, ?_⟩
  · show ∀ k, lo ≤ k → k < sc.2 → cmp (swap sc.1 sc.2 hi k) (swap sc.1 sc.2 hi sc.2) ≤ 0
    intro k hk1 hk2
    rw [hpv]
    have hk : swap sc.1 sc.2 hi k = sc.1 k := swap_ne sc.1 (by omega) (by omega)
    rw [hk]
    have := hle k hk1 hk2
    rw [hv] at this
    exact this
  · show ∀ k, sc.2 < k → k ≤ hi → 0 < cmp (swap sc.1 sc.2 hi k) (swap sc.1 sc.2 hi sc.2)
    intro k hk1 hk2
    rw [hpv]
    by_cases hkhi : k = hi
    · subst hkhi
      rw [swap_snd]
      have := hgt sc.2 (Nat.le_refl _) (by omega)
      rw [hv] at this
      exact this
    · have hk : swap sc.1 sc.2 hi k = sc.1 k := swap_ne sc.1 (by omega) hkhi
      rw [hk]
      have := hgt k (by omega) (by omega)
      rw [hv] at this
      exact this
  · show ∀ k, k < lo ∨ hi < k → swap sc.1 sc.2 hi k = arr k
    intro k hk
    have hk1 : swap sc.1 sc.2 hi k = sc.1 k := swap_ne sc.1 (by omega) (by omega)
    rw [hk1, hout k (by omega)]
    exact swap_ne arr (by omega) (by omega)
  · show (window (swap sc.1 sc.2 hi) lo (hi + 1 - lo)).Perm (window arr lo (hi + 1 - lo))
    have hw1 : (window (swap sc.1 sc.2 hi) lo (hi + 1 - lo)).Perm (window sc.1 lo (hi + 1 - lo)) :=
      window_swap_perm sc.1 hp1 hp2 (by omega)
    have hw3 : (window a1 lo (hi + 1 - lo)).Perm (window arr lo (hi + 1 - lo)) :=
      window_swap_perm arr hmid1 hmid2 (by omega)
    exact (hw1.trans hperm).trans hw3

/-! ### Insertion sort: shift closed form, loop invariant, contract -/

theorem window_concat (arr : Nat → α) (lo len : Nat) :
    window arr lo (len+1) = window arr lo len ++ [arr (lo+len)] := by
  rw [window, window, List.range'_1_concat, List.map_append]
  rfl

theorem window_shift_eq {a b : Nat → α} {lo len : Nat}
    (h : ∀ m, m < len → a (lo + 1 + m) = b (lo + m)) :
    window a (lo + 1) len = window b lo len := by
  apply List.ext_getElem
  · rw [window_length, window_length]
  · intro m h1 h2
    rw [window_length] at h1
    simp only [window, List.getElem_map, List.getElem_range']
    have e1 : lo + 1 + 1 * m = lo + 1 + m := by omega
    have e2 : lo + 1 * m = lo + m := by omega
    rw [e1, e2]
    exact h m h1

theorem insShift_spec (cmp : α → α → Int) (low : Nat) (key : α) :
    ∀ (j : Nat) (arr : Nat → α), low ≤ j →
      ∃ j0, low ≤ j0 ∧ j0 ≤ j
        ∧ insShift cmp low key j arr j0 = key
        ∧ (∀ t, j0 < t → t ≤ j → insShift cmp low key j arr t = arr (t-1))
        ∧ (∀ t, t < j0 ∨ j < t → insShift cmp low key j arr t = arr t)
        ∧ (low < j0 → cmp (arr (j0-1)) key ≤ 0)
        ∧ (∀ t, j0 ≤ t → t < j → 0 < cmp (arr t) key) := by
  intro j
  induction j with
  | zero =>
    intro arr hlow
    refine ⟨0, hlow, Nat.le_refl 0, updF_self arr 0 key, ?_, ?_, ?_, ?_⟩
    · intro t ht1 ht2; omega
    · intro t ht
      have htne : t ≠ 0 := by omega
      exact updF_ne arr key htne
    · intro hc; omega
    · intro t ht1 ht2; omega
  | succ j ih =>
    intro arr hlow
    by_cases hc : low < j + 1 ∧ 0 < cmp (arr j) key
    · have hstep : insShift cmp low key (j+1) arr
          = insShift cmp low key j (updF arr (j+1) (arr j)) := by
        simp [insShift, hc]
      rcases ih (updF arr (j+1) (arr j)) (by omega) with
        ⟨j0, hj1, hj2, hkey, hshift, hout, hexit, hbig⟩
      refine ⟨j0, hj1, by omega, ?_, ?_, ?_, ?_, ?_⟩
      · rw [hstep]; exact hkey
      · intro t ht1 ht2
        rw [hstep]
        by_cases htj : t = j + 1
        · subst htj
          rw [hout (j+1) (Or.inr (by omega)), updF_self]
          exact congrArg arr (by omega)
        · rw [hshift t ht1 (by omega)]
          exact updF_ne arr (arr j) (by omega)
      · intro t ht
        rw [hstep]
        rcases ht with ht | ht
        · rw [hout t (Or.inl ht)]
          exact updF_ne arr (arr j) (by omega)
        · rw [hout t (Or.inr (by omega))]
          exact updF_ne arr (arr j) (by omega)
      · intro hlow0
        have := hexit hlow0
        rw [updF_ne arr (arr j) (by omega : j0 - 1 ≠ j + 1)] at this
        exact this
      · intro t ht1 ht2
        by_cases htj : t = j
        · subst htj; exact hc.2
        · have := hbig t ht1 (by omega)
          rw [updF_ne arr (arr j) (by omega : t ≠ j + 1)] at this
          exact this
    · have hstep : insShift cmp low key (j+1) arr = updF arr (j+1) key := by
        simp [insShift, hc]
      refine ⟨j+1, by omega, Nat.le_refl _, ?_, ?_, ?_, ?_, ?_⟩
      · rw [hstep]; exact updF_self arr (j+1) key
      · intro t ht1 ht2; omega
      · intro t ht
        rw [hstep]
        exact updF_ne arr key (by omega)
      · intro hlow0
        have : ¬ 0 < cmp (arr j) key := fun hgt => hc ⟨hlow0, hgt⟩
        have heq : (j + 1) - 1 = j := by omega
        rw [heq]
        omega
      · intro t ht1 ht2; omega

theorem insLoop_spec (cmp : α → α → Int) (tc : TotalCmp cmp) (low high : Nat) :
    ∀ (s : Nat) (i : Nat) (arr : Nat → α), i + s = high + 1 → low < i →
      SortedRange cmp arr low (i-1) →
      SortedRange cmp (insLoop cmp low s i arr) low high
      ∧ (∀ k, k < low ∨ high < k → insLoop cmp low s i arr k = arr k)
      ∧ (window (insLoop cmp low s i arr) low (high + 1 - low)).Perm
          (window arr low (high + 1 - low)) := by
  intro s
  induction s with
  | zero =>
    intro i arr hi hlow hsort
    have hieq : i = high + 1 := by omega
    subst hieq
    refine ⟨?_, fun k _ => rfl, List.Perm.refl _⟩
    intro t ht1 ht2
    show cmp (arr t) (arr (t+1)) ≤ 0
    exact hsort t ht1 (by omega)
  | succ s ih =>
    intro i arr hi hlow hsort
    have hstep : insLoop cmp low (s+1) i arr
        = insLoop cmp low s (i+1) (insShift cmp low (arr i) i arr) := by
      simp [insLoop]
    rcases insShift_spec cmp low (arr i) i arr (by omega) with
      ⟨j0, hj1, hj2, hkey, hshift, hout, hexit, hbig⟩
    set arr2 := insShift cmp low (arr i) i arr with harr2
    have hsort2 : SortedRange cmp arr2 low ((i+1)-1) := by
      intro t ht1 ht2
      have ht2i : t < i := by omega
      by_cases h1 : t + 1 < j0
      · rw [hout t (Or.inl (by omega)), hout (t+1) (Or.inl h1)]
        exact hsort t ht1 (by omega)
      · by_cases h2 : t + 1 = j0
        · rw [hout t (Or.inl (by omega)), h2, hkey]
          have := hexit (by omega)
          have he : j0 - 1 = t := by omega
          rw [he] at this
          exact this
        · by_cases h3 : t = j0
          · subst h3
            rw [hkey, hshift (t+1) (by omega) (by omega)]
            have he : t + 1 - 1 = t := by omega
            rw [he]
            exact tc.gt_le (hbig t (Nat.le_refl t) ht2i)
          · have h4 : j0 < t := by omega
            rw [hshift t h4 (by omega), hshift (t+1) (by omega) (by omega)]
            have he1 : t + 1 - 1 = t := by omega
            rw [he1]
            have := hsort (t-1) (by omega) (by omega)
            have he2 : t - 1 + 1 = t := by omega
            rw [he2] at this
            exact this
    rcases ih (i+1) arr2 (by omega) (by omega) hsort2 with ⟨hs, hloc, hperm⟩
    rw [hstep]
    refine ⟨hs, ?_, ?_⟩
    · intro k hk
      rw [hloc k hk]
      rcases hk with hk | hk
      · exact hout k (Or.inl (by omega))
      · exact hout k (Or.inr (by omega))
    · apply hperm.trans
      have hperm2 : (window arr2 low (i + 1 - low)).Perm (window arr low (i + 1 - low)) := by
        have hsplit2 : window arr2 low (i + 1 - low)
            = window arr2 low (j0 - low) ++ arr2 j0 :: window arr2 (j0+1) (i - j0) := by
          have := @window_split _ arr2 low (i + 1 - low) j0 hj1 (by omega)
          have he : low + (i + 1 - low) - (j0 + 1) = i - j0 := by omega
          rw [he] at this
          exact this
        have hsplit1 : window arr low (i + 1 - low)
            = window arr low (j0 - low) ++ arr j0 :: window arr (j0+1) (i - j0) := by
          have := @window_split _ arr low (i + 1 - low) j0 hj1 (by omega)
          have he : low + (i + 1 - low) - (j0 + 1) = i - j0 := by omega
          rw [he] at this
          exact this
        rw [hsplit2, hsplit1]
        have eA : window arr2 low (j0 - low) = window arr low (j0 - low) := by
          apply window_congr
          intro k hk1 hk2
          exact hout k (Or.inl (by omega))
        rw [eA, hkey]
        apply List.Perm.append_left
        have eB : window arr2 (j0+1) (i - j0) = window arr j0 (i - j0) := by
          apply window_shift_eq
          intro m hm
          have := hshift (j0 + 1 + m) (by omega) (by omega)
          have he : j0 + 1 + m - 1 = j0 + m := by omega
          rw [he] at this
          exact this
        rw [eB]
        have eC : window arr j0 (i - j0) ++ [arr i] = window arr j0 ((i - j0) + 1) := by
          rw [window_concat]
          have he : j0 + (i - j0) = i := by omega
          rw [he]
        have eD : window arr j0 ((i - j0) + 1) = arr j0 :: window arr (j0+1) (i - j0) :=
          window_succ arr j0 (i - j0)
        have hp : (arr i :: window arr j0 (i - j0)).Perm (window arr j0 (i - j0) ++ [arr i]) :=
          (List.perm_append_singleton (arr i) (window arr j0 (i - j0))).symm
        rw [eC, eD] at hp
        exact hp
      apply window_perm_extend (by omega) hperm2
      intro k hk1 hk2
      exact hout k (Or.inr (by omega))

theorem insertion_sort_fail (cmp : α → α → Int) (arr : Nat → α) (lo hi : Nat) :
    insertion_sort cmp false arr lo hi = arr := rfl

theorem insertion_sort_spec (cmp : α → α → Int) (tc : TotalCmp cmp) (arr : Nat → α)
    {lo hi : Nat} (h : lo ≤ hi) :
    SortedRange cmp (insertion_sort cmp true arr lo hi) lo hi
    ∧ (∀ k, k < lo ∨ hi < k → insertion_sort cmp true arr lo hi k = arr k)
    ∧ (window (insertion_sort cmp true arr lo hi) lo (hi + 1 - lo)).Perm
        (window arr lo (hi + 1 - lo)) := by
  have hins : insertion_sort cmp true arr lo hi = insLoop cmp lo (hi - lo) (lo + 1) arr := by
    simp [insertion_sort]
  rw [hins]
  apply insLoop_spec cmp tc lo hi (hi - lo) (lo + 1) arr (by omega) (by omega)
  intro t ht1 ht2
  omega

/-! ### Heap index structure -/

theorem Desc.le {r c : Nat} (h : Desc r c) : r ≤ c := by
  induction h with
  | refl => exact Nat.le_refl r
  | left _ ih => omega
  | right _ ih => omega

theorem Desc.child_lb {r c : Nat} (h : Desc r c) (hne : c ≠ r) : 2 * r + 1 ≤ c := by
  cases h with
  | refl => exact absurd rfl hne
  | left h => have := h.le; omega
  | right h => have := h.le; omega

theorem Desc.trans {a b c : Nat} (h1 : Desc a b) (h2 : Desc b c) : Desc a c := by
  induction h2 with
  | refl => exact h1
  | left _ ih => exact Desc.left ih
  | right _ ih => exact Desc.right ih

theorem parent_left (i : Nat) : parent (2 * i + 1) = i := by
  unfold parent; omega

theorem parent_right (i : Nat) : parent (2 * i + 2) = i := by
  unfold parent; omega

theorem Desc.parent_of {r c : Nat} (h : Desc r c) (hne : c ≠ r) :
    Desc r (parent c) ∧ (c = 2 * parent c + 1 ∨ c = 2 * parent c + 2) := by
  cases h with
  | refl => exact absurd rfl hne
  | @left i h =>
    rw [parent_left]
    exact ⟨h, Or.inl rfl⟩
  | @right i h =>
    rw [parent_right]
    exact ⟨h, Or.inr rfl⟩

theorem Desc.zero (c : Nat) : Desc 0 c := by
  induction c using Nat.strong_induction_on with
  | _ c ih =>
    rcases Nat.eq_zero_or_pos c with rfl | hc
    · exact Desc.refl
    · have hp : parent c < c := by unfold parent; omega
      have hd := ih (parent c) hp
      have hsplit : c = 2 * parent c + 1 ∨ c = 2 * parent c + 2 := by unfold parent; omega
      rcases hsplit with he | he
      · rw [he]; exact Desc.left hd
      · rw [he]; exact Desc.right hd

/-- Every value in a subtree whose internal parent links all satisfy the heap
inequality is at most the subtree root value. -/
theorem desc_chain_le {cmp : α → α → Int} (tc : TotalCmp cmp) {arr : Nat → α}
    {off e r : Nat}
    (H : ∀ c, 0 < c → c ≤ e → Desc r c → c ≠ r →
      cmp (arr (off + c)) (arr (off + parent c)) ≤ 0) :
    ∀ c, Desc r c → c ≤ e → cmp (arr (off + c)) (arr (off + r)) ≤ 0 := by
  intro c hdesc
  induction hdesc with
  | refl => intro _; exact tc.rfl_le _
  | @left i h ih =>
    intro hce
    have hstep := H (2*i+1) (by omega) hce (Desc.left h) (by have := h.le; omega)
    rw [parent_left] at hstep
    exact tc.trans _ _ _ hstep (ih (by omega))
  | @right i h ih =>
    intro hce
    have hstep := H (2*i+2) (by omega) hce (Desc.right h) (by have := h.le; omega)
    rw [parent_right] at hstep
    exact tc.trans _ _ _ hstep (ih (by omega))

/-! ### Sift target selection facts -/

theorem siftTarget_cases (cmp : α → α → Int) (arr : Nat → α) (off root e : Nat) :
    siftTarget cmp arr off root e = root ∨ siftTarget cmp arr off root e = 2 * root + 1
    ∨ (siftTarget cmp arr off root e = 2 * root + 2 ∧ 2 * root + 2 ≤ e) := by
  simp only [siftTarget]
  by_cases h2 : 2 * root + 1 + 1 ≤ e
      ∧ cmp (arr (off + (if cmp (arr (off + root)) (arr (off + (2*root+1))) < 0
        then 2*root+1 else root))) (arr (off + (2*root+1+1))) < 0
  · rw [if_pos h2]
    right; right
    exact ⟨by omega, by omega⟩
  · rw [if_neg h2]
    by_cases h1 : cmp (arr (off + root)) (arr (off + (2*root+1))) < 0
    · rw [if_pos h1]; right; left; rfl
    · rw [if_neg h1]; left; rfl

theorem siftTarget_root_le (cmp : α → α → Int) (tc : TotalCmp cmp) (arr : Nat → α)
    (off root e : Nat) (hne : siftTarget cmp arr off root e ≠ root) :
    cmp (arr (off + root)) (arr (off + siftTarget cmp arr off root e)) ≤ 0 := by
  simp only [siftTarget] at hne ⊢
  by_cases h1 : cmp (arr (off + root)) (arr (off + (2*root+1))) < 0
  · rw [if_pos h1] at hne ⊢
    by_cases h2 : 2 * root + 1 + 1 ≤ e ∧ cmp (arr (off + (2*root+1))) (arr (off + (2*root+1+1))) < 0
    · rw [if_pos h2]
      refine tc.trans _ (arr (off + (2*root+1))) _ (by omega) ?_
      have := h2.2
      omega
    · rw [if_neg h2]; omega
  · rw [if_neg h1] at hne ⊢
    by_cases h2 : 2 * root + 1 + 1 ≤ e ∧ cmp (arr (off + root)) (arr (off + (2*root+1+1))) < 0
    · rw [if_pos h2]
      have := h2.2; omega
    · rw [if_neg h2] at hne
      exact absurd rfl hne

theorem siftTarget_childL_le (cmp : α → α → Int) (tc : TotalCmp cmp) (arr : Nat → α)
    (off root e : Nat) :
    cmp (arr (off + (2*root+1))) (arr (off + siftTarget cmp arr off root e)) ≤ 0 := by
  simp only [siftTarget]
  by_cases h1 : cmp (arr (off + root)) (arr (off + (2*root+1))) < 0
  · rw [if_pos h1]
    by_cases h2 : 2 * root + 1 + 1 ≤ e ∧ cmp (arr (off + (2*root+1))) (arr (off + (2*root+1+1))) < 0
    · rw [if_pos h2]
      have := h2.2; omega
    · rw [if_neg h2]
      exact tc.rfl_le _
  · rw [if_neg h1]
    have hcr : cmp (arr (off + (2*root+1))) (arr (off + root)) ≤ 0 := tc.not_lt_le h1
    by_cases h2 : 2 * root + 1 + 1 ≤ e ∧ cmp (arr (off + root)) (arr (off + (2*root+1+1))) < 0
    · rw [if_pos h2]
      exact tc.trans _ _ _ hcr (by have := h2.2; omega)
    · rw [if_neg h2]
      exact hcr

theorem siftTarget_childR_le (cmp : α → α → Int) (tc : TotalCmp cmp) (arr : Nat → α)
    (off root e : Nat) (hr : 2 * root + 2 ≤ e) :
    cmp (arr (off + (2*root+2))) (arr (off + siftTarget cmp arr off root e)) ≤ 0 := by
  simp only [siftTarget]
  by_cases h1 : cmp (arr (off + root)) (arr (off + (2*root+1))) < 0
  · rw [if_pos h1]
    by_cases h2 : 2 * root + 1 + 1 ≤ e ∧ cmp (arr (off + (2*root+1))) (arr (off + (2*root+1+1))) < 0
    · rw [if_pos h2]
      have he : 2 * root + 2 = 2 * root + 1 + 1 := by omega
      rw [he]
      exact tc.rfl_le _
    · rw [if_neg h2]
      have hn : ¬ cmp (arr (off + (2*root+1))) (arr (off + (2*root+1+1))) < 0 := by
        intro hlt; exact h2 ⟨by omega, hlt⟩
      have := tc.not_lt_le hn
      have he : 2 * root + 2 = 2 * root + 1 + 1 := by omega
      rw [he]
      exact this
  · rw [if_neg h1]
    by_cases h2 : 2 * root + 1 + 1 ≤ e ∧ cmp (arr (off + root)) (arr (off + (2*root+1+1))) < 0
    · rw [if_pos h2]
      have he : 2 * root + 2 = 2 * root + 1 + 1 := by omega
      rw [he]
      exact tc.rfl_le _
    · rw [if_neg h2]
      have hn : ¬ cmp (arr (off + root)) (arr (off + (2*root+1+1))) < 0 := by
        intro hlt; exact h2 ⟨by omega, hlt⟩
      have := tc.not_lt_le hn
      have he : 2 * root + 2 = 2 * root + 1 + 1 := by omega
      rw [he]
      exact this

/-! ### Sift-down correctness -/

theorem heapifyGo_succ (cmp : α → α → Int) (off e f root : Nat) (arr : Nat → α) :
    heapifyGo cmp off e (f+1) root arr
      = if 2 * root + 1 ≤ e then
          (if siftTarget cmp arr off root e = root then arr
           else heapifyGo cmp off e f (siftTarget cmp arr off root e)
             (swap arr (off + root) (off + siftTarget cmp arr off root e)))
        else arr := rfl

theorem heapifyGo_spec (cmp : α → α → Int) (tc : TotalCmp cmp) (off e : Nat) :
    ∀ (f root : Nat) (arr : Nat → α), e < root + f →
      (∀ c, 0 < c → c ≤ e → Desc root c → c ≠ root → parent c ≠ root →
        cmp (arr (off + c)) (arr (off + parent c)) ≤ 0) →
      (∀ c, 0 < c → c ≤ e → Desc root c → c ≠ root →
        cmp (heapifyGo cmp off e f root arr (off + c))
          (heapifyGo cmp off e f root arr (off + parent c)) ≤ 0)
      ∧ (∀ m, (∀ k, Desc root k → k ≤ e → m ≠ off + k) →
          heapifyGo cmp off e f root arr m = arr m)
      ∧ (window (heapifyGo cmp off e f root arr) off (e + 1)).Perm (window arr off (e + 1))
      ∧ (∀ k, Desc root k → k ≤ e →
          ∃ c, Desc root c ∧ c ≤ e ∧ heapifyGo cmp off e f root arr (off + k) = arr (off + c)) := by
  intro f
  induction f with
  | zero =>
    intro root arr hfuel hsub
    refine ⟨?_, fun m _ => rfl, List.Perm.refl _, ?_⟩
    · intro c h0 hce hdesc hne
      have := hdesc.le
      omega
    · intro k hdesc hke
      exact ⟨k, hdesc, hke, rfl⟩
  | succ f ih =>
    intro root arr hfuel hsub
    by_cases hch : 2 * root + 1 ≤ e
    · by_cases hs2 : siftTarget cmp arr off root e = root
      · have hstep : heapifyGo cmp off e (f+1) root arr = arr := by
          rw [heapifyGo_succ, if_pos hch, if_pos hs2]
        rw [hstep]
        refine ⟨?_, fun m _ => rfl, List.Perm.refl _, ?_⟩
        · intro c h0 hce hdesc hne
          by_cases hpc : parent c = root
          · rcases (hdesc.parent_of hne).2 with he | he
            · rw [hpc] at he
              rw [hpc]
              have := siftTarget_childL_le cmp tc arr off root e
              rw [hs2, ← he] at this
              exact this
            · rw [hpc] at he
              rw [hpc]
              have := siftTarget_childR_le cmp tc arr off root e (by omega)
              rw [hs2, ← he] at this
              exact this
          · exact hsub c h0 hce hdesc hne hpc
        · intro k hdesc hke
          exact ⟨k, hdesc, hke, rfl⟩
      · set s2 := siftTarget cmp arr off root e with hs2def
        have hT4 := siftTarget_cases cmp arr off root e
        rw [← hs2def] at hT4
        have hs2q : siftTarget cmp arr off root e ≠ root := by
          rw [← hs2def]; exact hs2
        have hRL : cmp (arr (off + root)) (arr (off + s2)) ≤ 0 := by
          have h := siftTarget_root_le cmp tc arr off root e hs2q
          rw [← hs2def] at h
          exact h
        have hCL : cmp (arr (off + (2*root+1))) (arr (off + s2)) ≤ 0 := by
          have h := siftTarget_childL_le cmp tc arr off root e
          rw [← hs2def] at h
          exact h
        have hCR : 2*root+2 ≤ e → cmp (arr (off + (2*root+2))) (arr (off + s2)) ≤ 0 := by
          intro hr
          have h := siftTarget_childR_le cmp tc arr off root e hr
          rw [← hs2def] at h
          exact h
        have hstep : heapifyGo cmp off e (f+1) root arr
            = heapifyGo cmp off e f s2 (swap arr (off + root) (off + s2)) := by
          rw [heapifyGo_succ, if_pos hch, ← hs2def, if_neg hs2]
        clear_value s2
        have hs2gt : root < s2 := by
          rcases hT4 with h | h | h
          · exact absurd h hs2
          · omega
          · omega
        have hs2le : s2 ≤ e := by
          rcases hT4 with h | h | h
          · exact absurd h hs2
          · omega
          · omega
        have hdesc_s2 : Desc root s2 := by
          rcases hT4 with h | h | h
          · exact absurd h hs2
          · rw [h]; exact Desc.left Desc.refl
          · rw [h.1]; exact Desc.right Desc.refl
        have hparent_s2 : parent s2 = root := by
          rcases hT4 with h | h | h
          · exact absurd h hs2
          · rw [h]; exact parent_left root
          · rw [h.1]; exact parent_right root
        set arr2 := swap arr (off + root) (off + s2) with harr2
        have hsub2 : ∀ c, 0 < c → c ≤ e → Desc s2 c → c ≠ s2 → parent c ≠ s2 →
            cmp (arr2 (off + c)) (arr2 (off + parent c)) ≤ 0 := by
          intro c h0 hce hdc hne hpne
          have hclb := hdc.child_lb hne
          have hpd := (hdc.parent_of hne).1
          have hple := hpd.le
          have hpgt : s2 < parent c := by
            rcases Nat.eq_or_lt_of_le hple with he | hlt
            · exact absurd he.symm hpne
            · exact hlt
          have e1 : arr2 (off + c) = arr (off + c) :=
            swap_ne arr (by omega) (by omega)
          have e2 : arr2 (off + parent c) = arr (off + parent c) :=
            swap_ne arr (by omega) (by omega)
          rw [e1, e2]
          exact hsub c h0 hce (hdesc_s2.trans hdc) (by omega) (by omega)
        rcases ih s2 arr2 (by omega) hsub2 with ⟨G1, G2, G3, G4⟩
        have hroot_le_e : root ≤ e := by omega
        have hvroot : heapifyGo cmp off e f s2 arr2 (off + root) = arr (off + s2) := by
          have hG2 := G2 (off + root) (by
            intro k hk hke
            have := hk.le
            omega)
          rw [hG2, harr2, swap_fst]
        have hchain : ∀ c2, Desc s2 c2 → c2 ≤ e →
            cmp (arr (off + c2)) (arr (off + s2)) ≤ 0 := by
          apply desc_chain_le tc
          intro d h0 hde hdd hdne
          have hdlb := hdd.child_lb hdne
          have hplb := (hdd.parent_of hdne).1.le
          exact hsub d h0 hde (hdesc_s2.trans hdd) (by omega) (by omega)
        refine ⟨?_, ?_, ?_, ?_⟩
        · intro c h0 hce hdesc hne
          rw [hstep]
          by_cases hdc : Desc s2 c
          · by_cases hcs2 : c = s2
            · rw [hcs2, hparent_s2]
              rcases G4 s2 Desc.refl hs2le with ⟨c2, hc2d, hc2e, hc2v⟩
              rw [hc2v, hvroot]
              by_cases hc2s : c2 = s2
              · rw [hc2s, harr2, swap_snd]
                exact hRL
              · have hc2lb := hc2d.child_lb hc2s
                have e1 : arr2 (off + c2) = arr (off + c2) := by
                  rw [harr2]
                  exact swap_ne arr (by omega) (by omega)
                rw [e1]
                exact hchain c2 hc2d hc2e
            · exact G1 c h0 hce hdc hcs2
          · have hval : heapifyGo cmp off e f s2 arr2 (off + c) = arr (off + c) := by
              have hG2 := G2 (off + c) (by
                intro k hk hke hekq
                have hck : c = k := by omega
                rw [hck] at hdc
                exact hdc hk)
              rw [hG2, harr2]
              refine swap_ne arr (by omega) ?_
              intro hq
              have hcs : c = s2 := by omega
              rw [hcs] at hdc
              exact hdc Desc.refl
            rw [hval]
            by_cases hpc : parent c = root
            · have hpv : heapifyGo cmp off e f s2 arr2 (off + parent c) = arr (off + s2) := by
                rw [hpc, hvroot]
              rw [hpv]
              rcases (hdesc.parent_of hne).2 with he | he
              · rw [hpc] at he
                rw [he] at hce ⊢
                exact hCL
              · rw [hpc] at he
                rw [he] at hce ⊢
                exact hCR (by omega)
            · have hpnd : ¬ Desc s2 (parent c) := by
                intro hq
                rcases (hdesc.parent_of hne).2 with he | he
                · rw [he] at hdc
                  exact hdc (Desc.left hq)
                · rw [he] at hdc
                  exact hdc (Desc.right hq)
              have hpns2 : parent c ≠ s2 := by
                intro hq
                rw [hq] at hpnd
                exact hpnd Desc.refl
              have hple2 : parent c ≤ e := by
                unfold parent
                omega
              have hpval : heapifyGo cmp off e f s2 arr2 (off + parent c)
                  = arr (off + parent c) := by
                have hG2 := G2 (off + parent c) (by
                  intro k hk hke hekq
                  have hpk : parent c = k := by omega
                  rw [hpk] at hpnd
                  exact hpnd hk)
                rw [hG2, harr2]
                have hpnr : parent c ≠ root := hpc
                exact swap_ne arr (by omega) (by omega)
              rw [hpval]
              exact hsub c h0 hce hdesc hne hpc
        · intro m hm
          rw [hstep]
          have hG2 := G2 m (by
            intro k hk hke
            exact hm k (hdesc_s2.trans hk) hke)
          rw [hG2, harr2]
          exact swap_ne arr (hm root Desc.refl hroot_le_e) (hm s2 hdesc_s2 hs2le)
        · rw [hstep]
          apply G3.trans
          rw [harr2]
          exact window_swap_perm arr (by omega) (by omega) (by omega)
        · intro k hk hke
          rw [hstep]
          by_cases hdk : Desc s2 k
          · rcases G4 k hdk hke with ⟨c2, hc2d, hc2e, hv⟩
            rw [hv]
            by_cases hc2s : c2 = s2
            · rw [hc2s, harr2, swap_snd]
              exact ⟨root, Desc.refl, hroot_le_e, rfl⟩
            · have hc2lb := hc2d.child_lb hc2s
              have e1 : arr2 (off + c2) = arr (off + c2) := by
                rw [harr2]
                exact swap_ne arr (by omega) (by omega)
              rw [e1]
              exact ⟨c2, hdesc_s2.trans hc2d, hc2e, rfl⟩
          · have hval : heapifyGo cmp off e f s2 arr2 (off + k) = arr2 (off + k) := by
              apply G2
              intro k2 hk2 hk2e hekq
              have hkk : k = k2 := by omega
              rw [hkk] at hdk
              exact hdk hk2
            rw [hval]
            by_cases hkr : k = root
            · rw [hkr, harr2, swap_fst]
              exact ⟨s2, hdesc_s2, hs2le, rfl⟩
            · have e1 : arr2 (off + k) = arr (off + k) := by
                rw [harr2]
                refine swap_ne arr (by omega) ?_
                intro hq
                have hks : k = s2 := by omega
                rw [hks] at hdk
                exact hdk Desc.refl
              rw [e1]
              exact ⟨k, hk, hke, rfl⟩
    · have hstep : heapifyGo cmp off e (f+1) root arr = arr := by
        rw [heapifyGo_succ, if_neg hch]
      rw [hstep]
      refine ⟨?_, fun m _ => rfl, List.Perm.refl _, ?_⟩
      · intro c h0 hce hdesc hne
        have := hdesc.child_lb hne
        omega
      · intro k hdesc hke
        exact ⟨k, hdesc, hke, rfl⟩

theorem heapify_spec (cmp : α → α → Int) (tc : TotalCmp cmp) (off e root : Nat)
    (arr : Nat → α)
    (hsub : ∀ c, 0 < c → c ≤ e → Desc root c → c ≠ root → parent c ≠ root →
      cmp (arr (off + c)) (arr (off + parent c)) ≤ 0) :
    (∀ c, 0 < c → c ≤ e → Desc root c → c ≠ root →
      cmp (heapify cmp arr off root e (off + c))
        (heapify cmp arr off root e (off + parent c)) ≤ 0)
    ∧ (∀ m, (∀ k, Desc root k → k ≤ e → m ≠ off + k) →
        heapify cmp arr off root e m = arr m)
    ∧ (window (heapify cmp arr off root e) off (e + 1)).Perm (window arr off (e + 1))
    ∧ (∀ k, Desc root k → k ≤ e →
        ∃ c, Desc root c ∧ c ≤ e ∧ heapify cmp arr off root e (off + k) = arr (off + c)) :=
  heapifyGo_spec cmp tc off e (e + 1) root arr (by omega) hsub

/-- The root of a max-heap is a maximum of the heap range. -/
theorem heap_max {cmp : α → α → Int} (tc : TotalCmp cmp) {arr : Nat → α} {off e : Nat}
    (H : ∀ c, 0 < c → c ≤ e → cmp (arr (off + c)) (arr (off + parent c)) ≤ 0) :
    ∀ c, c ≤ e → cmp (arr (off + c)) (arr (off + 0)) ≤ 0 := by
  have H2 : ∀ c, 0 < c → c ≤ e → Desc 0 c → c ≠ 0 →
      cmp (arr (off + c)) (arr (off + parent c)) ≤ 0 :=
    fun c h0 hce _ _ => H c h0 hce
  intro c hce
  exact desc_chain_le tc H2 c (Desc.zero c) hce

theorem heapBuild_spec (cmp : α → α → Int) (tc : TotalCmp cmp) (off e : Nat) :
    ∀ (s : Nat) (arr : Nat → α),
      (∀ c, 0 < c → c ≤ e → s < parent c →
        cmp (arr (off + c)) (arr (off + parent c)) ≤ 0) →
      (∀ c, 0 < c → c ≤ e →
        cmp (heapBuild cmp off e s arr (off + c)) (heapBuild cmp off e s arr (off + parent c)) ≤ 0)
      ∧ (∀ m, (∀ k, k ≤ e → m ≠ off + k) → heapBuild cmp off e s arr m = arr m)
      ∧ (window (heapBuild cmp off e s arr) off (e + 1)).Perm (window arr off (e + 1))
      ∧ (∀ k, k ≤ e → ∃ c, c ≤ e ∧ heapBuild cmp off e s arr (off + k) = arr (off + c)) := by
  intro s
  induction s with
  | zero =>
    intro arr hinv
    have hsub : ∀ c, 0 < c → c ≤ e → Desc 0 c → c ≠ 0 → parent c ≠ 0 →
        cmp (arr (off + c)) (arr (off + parent c)) ≤ 0 := by
      intro c h0 hce _ _ hpne
      exact hinv c h0 hce (by omega)
    rcases heapify_spec cmp tc off e 0 arr hsub with ⟨H1, H2, H3, H4⟩
    refine ⟨?_, ?_, H3, ?_⟩
    · intro c h0 hce
      exact H1 c h0 hce (Desc.zero c) (by omega)
    · intro m hm
      exact H2 m (fun k _ hke => hm k hke)
    · intro k hke
      rcases H4 k (Desc.zero k) hke with ⟨c, _, hce, hv⟩
      exact ⟨c, hce, hv⟩
  | succ s ih =>
    intro arr hinv
    have hsub : ∀ c, 0 < c → c ≤ e → Desc (s+1) c → c ≠ s+1 → parent c ≠ s+1 →
        cmp (arr (off + c)) (arr (off + parent c)) ≤ 0 := by
      intro c h0 hce hdesc hne hpne
      have hpd := (hdesc.parent_of hne).1
      have hple := hpd.le
      exact hinv c h0 hce (by omega)
    rcases heapify_spec cmp tc off e (s+1) arr hsub with ⟨H1, H2, H3, H4⟩
    set arrA := heapify cmp arr off (s+1) e with harrA
    have hinv2 : ∀ c, 0 < c → c ≤ e → s < parent c →
        cmp (arrA (off + c)) (arrA (off + parent c)) ≤ 0 := by
      intro c h0 hce hpgt
      have hsplit : c = 2 * parent c + 1 ∨ c = 2 * parent c + 2 := by
        unfold parent
        omega
      by_cases hdc : Desc (s+1) c
      · by_cases hcs : c = s+1
        · have : parent (s+1) ≤ s := by unfold parent; omega
          rw [hcs] at hpgt
          omega
        · exact H1 c h0 hce hdc hcs
      · have hpnd : ¬ Desc (s+1) (parent c) := by
          intro hq
          rcases hsplit with he | he
          · rw [he] at hdc
            exact hdc (Desc.left hq)
          · rw [he] at hdc
            exact hdc (Desc.right hq)
        have hcv : arrA (off + c) = arr (off + c) := by
          apply H2
          intro k hk hke hekq
          have hck : c = k := by omega
          rw [hck] at hdc
          exact hdc hk
        have hpv : arrA (off + parent c) = arr (off + parent c) := by
          apply H2
          intro k hk hke hekq
          have hpk : parent c = k := by omega
          rw [hpk] at hpnd
          exact hpnd hk
        rw [hcv, hpv]
        have hps1 : parent c ≠ s + 1 := by
          intro hq
          apply hpnd
          rw [hq]
          exact Desc.refl
        exact hinv c h0 hce (by omega)
    rcases ih arrA hinv2 with ⟨G1, G2, G3, G4⟩
    have hstep : heapBuild cmp off e (s+1) arr = heapBuild cmp off e s arrA := by
      rw [heapBuild, harrA]
    rw [hstep]
    refine ⟨G1, ?_, ?_, ?_⟩
    · intro m hm
      rw [G2 m hm]
      exact H2 m (fun k _ hke => hm k hke)
    · apply G3.trans
      exact H3
    · intro k hke
      rcases G4 k hke with ⟨c2, hc2e, hv⟩
      rw [hv]
      by_cases hdc2 : Desc (s+1) c2
      · rcases H4 c2 hdc2 hc2e with ⟨c3, _, hc3e, hv3⟩
        exact ⟨c3, hc3e, hv3⟩
      · have hval : arrA (off + c2) = arr (off + c2) := by
          apply H2
          intro k2 hk2 hk2e hekq
          have : c2 = k2 := by omega
          rw [this] at hdc2
          exact hdc2 hk2
        exact ⟨c2, hc2e, hval⟩

theorem heapExtract_spec (cmp : α → α → Int) (tc : TotalCmp cmp) (off E0 : Nat) :
    ∀ (e : Nat) (arr : Nat → α), e ≤ E0 →
      (∀ c, 0 < c → c ≤ e → cmp (arr (off + c)) (arr (off + parent c)) ≤ 0) →
      (∀ i j, i ≤ e → e < j → j ≤ E0 → cmp (arr (off + i)) (arr (off + j)) ≤ 0) →
      (∀ t, e < t → t < E0 → cmp (arr (off + t)) (arr (off + (t+1))) ≤ 0) →
      (∀ t, t < E0 → cmp (heapExtract cmp off e arr (off + t))
        (heapExtract cmp off e arr (off + (t+1))) ≤ 0)
      ∧ (∀ m, (∀ k, k ≤ e → m ≠ off + k) → heapExtract cmp off e arr m = arr m)
      ∧ (window (heapExtract cmp off e arr) off (E0 + 1)).Perm (window arr off (E0 + 1)) := by
  intro e
  induction e with
  | zero =>
    intro arr hE hheap hsplit hsorted
    refine ⟨?_, fun m _ => rfl, List.Perm.refl _⟩
    intro t htE
    show cmp (arr (off + t)) (arr (off + (t+1))) ≤ 0
    rcases Nat.eq_zero_or_pos t with rfl | ht
    · exact hsplit 0 1 (Nat.le_refl 0) (by omega) (by omega)
    · exact hsorted t (by omega) htE
  | succ e ih =>
    intro arr hE hheap hsplit hsorted
    set arrA := swap arr off (off + (e+1)) with harrA
    have hsubB : ∀ c, 0 < c → c ≤ e → Desc 0 c → c ≠ 0 → parent c ≠ 0 →
        cmp (arrA (off + c)) (arrA (off + parent c)) ≤ 0 := by
      intro c h0 hce _ _ hpne
      have hpar_lt : parent c < c := by unfold parent; omega
      have e1 : arrA (off + c) = arr (off + c) := by
        rw [harrA]
        exact swap_ne arr (by omega) (by omega)
      have e2 : arrA (off + parent c) = arr (off + parent c) := by
        rw [harrA]
        exact swap_ne arr (by omega) (by omega)
      rw [e1, e2]
      exact hheap c h0 (by omega)
    rcases heapify_spec cmp tc off e 0 arrA hsubB with ⟨H1, H2, H3, H4⟩
    set arrB := heapify cmp arrA off 0 e with harrB
    have hstep : heapExtract cmp off (e+1) arr = heapExtract cmp off e arrB := by
      rw [heapExtract, harrB, harrA]
    have hBtop : ∀ j, e < j → j ≤ E0 →
        arrB (off + j) = (if j = e + 1 then arr (off + 0) else arr (off + j)) := by
      intro j hj1 hj2
      have hBj : arrB (off + j) = arrA (off + j) := by
        apply H2
        intro k hk hke
        omega
      rw [hBj, harrA]
      by_cases hje : j = e + 1
      · rw [if_pos hje, hje]
        rw [show off + 0 = off from by omega]
        exact swap_snd arr off (off + (e+1))
      · rw [if_neg hje]
        exact swap_ne arr (by omega) (by omega)
    have hmax := heap_max tc (fun c h0 hce => hheap c h0 hce)
    have hBlow : ∀ i, i ≤ e → ∃ c, c ≤ e + 1 ∧ arrB (off + i) = arr (off + c) := by
      intro i hie
      rcases H4 i (Desc.zero i) hie with ⟨c, _, hce, hv⟩
      by_cases hc0 : c = 0
      · refine ⟨e + 1, Nat.le_refl _, ?_⟩
        rw [hv, harrA, hc0, show off + 0 = off from by omega, swap_fst]
      · refine ⟨c, by omega, ?_⟩
        rw [hv, harrA]
        exact swap_ne arr (by omega) (by omega)
    have hheapB : ∀ c, 0 < c → c ≤ e → cmp (arrB (off + c)) (arrB (off + parent c)) ≤ 0 := by
      intro c h0 hce
      exact H1 c h0 hce (Desc.zero c) (by omega)
    have hsplitB : ∀ i j, i ≤ e → e < j → j ≤ E0 →
        cmp (arrB (off + i)) (arrB (off + j)) ≤ 0 := by
      intro i j hie hje hjE
      rcases hBlow i hie with ⟨c, hc, hv⟩
      rw [hv, hBtop j hje hjE]
      by_cases hje1 : j = e + 1
      · rw [if_pos hje1]
        exact hmax c hc
      · rw [if_neg hje1]
        exact hsplit c j (by omega) (by omega) hjE
    have hsortedB : ∀ t, e < t → t < E0 → cmp (arrB (off + t)) (arrB (off + (t+1))) ≤ 0 := by
      intro t ht1 ht2
      rw [hBtop t ht1 (by omega), hBtop (t+1) (by omega) (by omega)]
      by_cases hte : t = e + 1
      · rw [if_pos hte, if_neg (by omega)]
        exact hsplit 0 (t+1) (by omega) (by omega) (by omega)
      · rw [if_neg hte, if_neg (by omega)]
        exact hsorted t (by omega) ht2
    rcases ih arrB (by omega) hheapB hsplitB hsortedB with ⟨G1, G2, G3⟩
    rw [hstep]
    refine ⟨G1, ?_, ?_⟩
    · intro m hm
      rw [G2 m (fun k hke => hm k (by omega))]
      have hBm : arrB m = arrA m := by
        apply H2
        intro k hk hke
        exact hm k (by omega)
      rw [hBm, harrA]
      have hm0 : m ≠ off := by
        have := hm 0 (by omega)
        omega
      exact swap_ne arr hm0 (hm (e+1) (Nat.le_refl _))
    · apply G3.trans
      have hBperm : (window arrB off (E0 + 1)).Perm (window arrA off (E0 + 1)) := by
        apply window_perm_extend (show e + 1 ≤ E0 + 1 by omega) H3
        intro k hk1 hk2
        apply H2
        intro k2 hk2d hk2e
        omega
      have hAperm : (window arrA off (E0 + 1)).Perm (window arr off (E0 + 1)) := by
        rw [harrA]
        exact window_swap_perm arr (Nat.le_refl off) (by omega) (by omega)
      exact hBperm.trans hAperm

theorem heapsort_spec (cmp : α → α → Int) (tc : TotalCmp cmp) (arr : Nat → α)
    {lo hi : Nat} (h : lo < hi) :
    SortedRange cmp (heapsort cmp arr lo hi) lo hi
    ∧ (∀ k, k < lo ∨ hi < k → heapsort cmp arr lo hi k = arr k)
    ∧ (window (heapsort cmp arr lo hi) lo (hi + 1 - lo)).Perm
        (window arr lo (hi + 1 - lo)) := by
  have hsrt : heapsort cmp arr lo hi
      = heapExtract cmp lo (hi - lo)
          (heapBuild cmp lo (hi - lo) ((hi - lo + 1 - 2) / 2) arr) := by
    simp only [heapsort]
    have h1 : hi - lo + 1 - 1 = hi - lo := by omega
    rw [h1]
  rcases heapBuild_spec cmp tc lo (hi - lo) ((hi - lo + 1 - 2) / 2) arr (by
    intro c h0 hce hpgt
    exfalso
    unfold parent at hpgt
    omega) with ⟨B1, B2, B3, B4⟩
  rcases heapExtract_spec cmp tc lo (hi - lo) (hi - lo)
      (heapBuild cmp lo (hi - lo) ((hi - lo + 1 - 2) / 2) arr) (Nat.le_refl _) B1
      (by intro i j hij hji hjE; omega) (by intro t ht1 ht2; omega) with ⟨S, L, P⟩
  refine ⟨?_, ?_, ?_⟩
  · intro i hi1 hi2
    rw [hsrt]
    have hs := S (i - lo) (by omega)
    rw [show lo + (i - lo) = i from by omega,
        show lo + (i - lo + 1) = i + 1 from by omega] at hs
    exact hs
  · intro k hk
    rw [hsrt]
    have hLk := L k (by intro k2 hk2; omega)
    rw [hLk]
    exact B2 k (by intro k2 hk2; omega)
  · rw [hsrt, show hi + 1 - lo = (hi - lo) + 1 from by omega]
    exact P.trans B3

/-! ### Dispatcher: step analysis and auxiliary facts -/

theorem sortedRange_pairwise {cmp : α → α → Int} (tc : TotalCmp cmp) {arr : Nat → α}
    {lo hi : Nat} (hs : SortedRange cmp arr lo hi) :
    ∀ d i, lo ≤ i → i + d ≤ hi → cmp (arr i) (arr (i + d)) ≤ 0 := by
  intro d
  induction d with
  | zero => intro i _ _; exact tc.rfl_le _
  | succ d ih =>
    intro i h1 h2
    have hd := ih i h1 (by omega)
    have hstep := hs (i + d) (by omega) (by omega)
    have he : i + d + 1 = i + (d + 1) := by omega
    rw [he] at hstep
    exact tc.trans _ _ _ hd hstep

theorem sortedRange_le {cmp : α → α → Int} (tc : TotalCmp cmp) {arr : Nat → α}
    {lo hi i j : Nat} (hs : SortedRange cmp arr lo hi) (h1 : lo ≤ i) (h2 : i ≤ j)
    (h3 : j ≤ hi) : cmp (arr i) (arr j) ≤ 0 := by
  have := sortedRange_pairwise tc hs (j - i) i h1 (by omega)
  rw [show i + (j - i) = j from by omega] at this
  exact this

theorem kidsOf_length (lo hi d p : Nat) : (kidsOf lo hi d p).length = ftpOf lo hi p := by
  unfold kidsOf ftpOf
  by_cases h1 : p < hi <;> by_cases h2 : lo < p <;> simp [h1, h2]

theorem kidsOf_mem {lo hi d p : Nat} {g : Frame} (h : g ∈ kidsOf lo hi d p) :
    (p < hi ∧ g = ⟨p+1, hi, d+1⟩) ∨ (lo < p ∧ g = ⟨lo, p-1, d+1⟩) := by
  unfold kidsOf at h
  by_cases h1 : p < hi <;> by_cases h2 : lo < p <;> simp [h1, h2] at h
  · rcases h with h | h
    · exact Or.inl ⟨h1, h⟩
    · exact Or.inr ⟨h2, h⟩
  · exact Or.inl ⟨h1, h⟩
  · exact Or.inr ⟨h2, h⟩

theorem kid_left_mem {lo hi p : Nat} (d : Nat) (h : lo < p) :
    (⟨lo, p-1, d+1⟩ : Frame) ∈ kidsOf lo hi d p := by
  unfold kidsOf
  by_cases h1 : p < hi <;> simp [h1, h]

theorem kid_right_mem {lo hi p : Nat} (d : Nat) (h : p < hi) :
    (⟨p+1, hi, d+1⟩ : Frame) ∈ kidsOf lo hi d p := by
  unfold kidsOf
  by_cases h2 : lo < p <;> simp [h2, h]

theorem kidsOf_pairwise (lo hi d p : Nat) : (kidsOf lo hi d p).Pairwise FrDisj := by
  unfold kidsOf
  by_cases h1 : p < hi <;> by_cases h2 : lo < p <;> simp [h1, h2, FrDisj]
  omega

theorem stackWt_cons (f : Frame) (rest : List Frame) :
    stackWt (f :: rest) = frameWt f + stackWt rest := by
  simp [stackWt]

theorem stackWt_append (a b : List Frame) :
    stackWt (a ++ b) = stackWt a + stackWt b := by
  simp [stackWt]

theorem kidsOf_wt {lo hi p : Nat} (d : Nat) (h1 : lo ≤ p) (h2 : p ≤ hi) (h3 : lo < hi) :
    stackWt (kidsOf lo hi d p) + 1 ≤ frameWt ⟨lo, hi, d⟩ := by
  unfold kidsOf
  by_cases hr : p < hi <;> by_cases hl : lo < p <;>
    simp [hr, hl, stackWt, frameWt] <;> omega

theorem introStep_cases (cmp : α → α → Int) (ok : Bool) (cap limit : Nat) (f : Frame)
    (rest : List Frame) (arr : Nat → α) :
    (f.high ≤ f.low ∧ introStep cmp ok cap limit f rest arr = (rest, arr, .discard))
    ∨ (f.low < f.high ∧ f.high - f.low + 1 < 16
        ∧ introStep cmp ok cap limit f rest arr
          = (rest, insertion_sort cmp ok arr f.low f.high, .ins f.low f.high ok))
    ∨ (f.low < f.high ∧ 16 ≤ f.high - f.low + 1 ∧ limit ≤ f.depth
        ∧ introStep cmp ok cap limit f rest arr
          = (rest, heapsort cmp arr f.low f.high, .heapLimit f.low f.high))
    ∨ (f.low < f.high ∧ 16 ≤ f.high - f.low + 1 ∧ f.depth < limit
        ∧ cap ≤ rest.length
            + (kidsOf f.low f.high f.depth (partitionP cmp arr f.low f.high).2).length
        ∧ introStep cmp ok cap limit f rest arr
          = (rest, heapsort cmp (partitionP cmp arr f.low f.high).1 f.low f.high,
              .heapFull f.low f.high (partitionP cmp arr f.low f.high).2))
    ∨ (f.low < f.high ∧ 16 ≤ f.high - f.low + 1 ∧ f.depth < limit
        ∧ rest.length
            + (kidsOf f.low f.high f.depth (partitionP cmp arr f.low f.high).2).length < cap
        ∧ introStep cmp ok cap limit f rest arr
          = (kidsOf f.low f.high f.depth (partitionP cmp arr f.low f.high).2 ++ rest,
              (partitionP cmp arr f.low f.high).1,
              .push f.low f.high (partitionP cmp arr f.low f.high).2)) := by
  by_cases h1 : f.high ≤ f.low
  · exact Or.inl ⟨h1, by simp [introStep, h1]⟩
  · by_cases h2 : f.high - f.low + 1 < 16
    · exact Or.inr (Or.inl ⟨by omega, h2, by simp [introStep, h1, h2]⟩)
    · by_cases h3 : limit ≤ f.depth
      · exact Or.inr (Or.inr (Or.inl ⟨by omega, by omega, h3,
          by simp [introStep, h1, h2, h3]⟩))
      · by_cases h4 : cap ≤ rest.length
            + (kidsOf f.low f.high f.depth (partitionP cmp arr f.low f.high).2).length
        · refine Or.inr (Or.inr (Or.inr (Or.inl ⟨by omega, by omega, by omega, h4, ?_⟩)))
          simp [introStep, h1, h2, h3, h4]
        · refine Or.inr (Or.inr (Or.inr (Or.inr ⟨by omega, by omega, by omega, by omega, ?_⟩)))
          simp [introStep, h1, h2, h3, h4]

theorem introLoop_nil (cmp : α → α → Int) (oracle : Nat → Bool) (cap limit fuel : Nat)
    (arr : Nat → α) (k : Nat) :
    introLoop cmp oracle cap limit fuel [] arr k = some (arr, []) := by
  cases fuel <;> rfl

theorem introLoop_succ (cmp : α → α → Int) (oracle : Nat → Bool) (cap limit fuel : Nat)
    (f : Frame) (rest : List Frame) (arr : Nat → α) (k : Nat) :
    introLoop cmp oracle cap limit (fuel+1) (f :: rest) arr k
      = (introLoop cmp oracle cap limit fuel
            (introStep cmp (oracle k) cap limit f rest arr).1
            (introStep cmp (oracle k) cap limit f rest arr).2.1
            (k + (if isIns (introStep cmp (oracle k) cap limit f rest arr).2.2 then 1 else 0))).map
          (fun p => (p.1, ⟨f, rest.length, (introStep cmp (oracle k) cap limit f rest arr).2.2⟩ :: p.2)) :=
  rfl

theorem range_provenance {res arr : Nat → α} {lo hi : Nat}
    (hperm : (window res lo (hi + 1 - lo)).Perm (window arr lo (hi + 1 - lo)))
    {i : Nat} (h1 : lo ≤ i) (h2 : i ≤ hi) :
    ∃ m, lo ≤ m ∧ m ≤ hi ∧ res i = arr m := by
  rcases window_perm_mem hperm h1 (by omega) with ⟨m, hm1, hm2, hv⟩
  exact ⟨m, hm1, by omega, hv⟩

theorem pairsDone_sorted_step {cmp : α → α → Int} (tc : TotalCmp cmp) {n : Nat}
    {f : Frame} {rest : List Frame} {arr res : Nat → α}
    (hb : f.high < n) (hlh : f.low ≤ f.high)
    (hdisj : ∀ g ∈ rest, FrDisj f g)
    (hP : PairsDone cmp n (f :: rest) arr)
    (hsorted : SortedRange cmp res f.low f.high)
    (hout : ∀ k, k < f.low ∨ f.high < k → res k = arr k)
    (hperm : (window res f.low (f.high + 1 - f.low)).Perm
      (window arr f.low (f.high + 1 - f.low))) :
    PairsDone cmp n rest res := by
  intro i j hij hjn hnc
  by_cases hi_in : f.low ≤ i ∧ i ≤ f.high
  · by_cases hj_in : f.low ≤ j ∧ j ≤ f.high
    · exact sortedRange_le tc hsorted hi_in.1 (by omega) hj_in.2
    · have hj_hi : f.high < j := by omega
      rcases range_provenance hperm hi_in.1 hi_in.2 with ⟨m, hm1, hm2, hv⟩
      rw [hv, hout j (Or.inr hj_hi)]
      apply hP m j (by omega) hjn
      intro g hg
      rcases List.mem_cons.mp hg with rfl | hg2
      · rintro ⟨hc1, hc2⟩
        omega
      · rintro ⟨hc1, hc2⟩
        rcases hdisj g hg2 with hd | hd
        · unfold FrDisj at *
          omega
        · omega
  · by_cases hj_in : f.low ≤ j ∧ j ≤ f.high
    · have hi_lo : i < f.low := by omega
      rcases range_provenance hperm hj_in.1 hj_in.2 with ⟨m, hm1, hm2, hv⟩
      rw [hv, hout i (Or.inl hi_lo)]
      apply hP i m (by omega) (by omega)
      intro g hg
      rcases List.mem_cons.mp hg with rfl | hg2
      · rintro ⟨hc1, hc2⟩
        omega
      · rintro ⟨hc1, hc2⟩
        rcases hdisj g hg2 with hd | hd
        · omega
        · omega
    · have hi_out : i < f.low ∨ f.high < i := by
        by_cases h1 : i < f.low
        · exact Or.inl h1
        · right
          by_contra h2
          exact hi_in ⟨by omega, by omega⟩
      have hj_out : j < f.low ∨ f.high < j := by
        by_cases hjlo : j < f.low
        · exact Or.inl hjlo
        · right
          by_contra hjh
          exact hj_in ⟨by omega, by omega⟩
      rw [hout i hi_out, hout j hj_out]
      apply hP i j hij hjn
      intro g hg
      rcases List.mem_cons.mp hg with rfl | hg2
      · rintro ⟨hc1, hc2⟩
        exact hi_in ⟨hc1, by omega⟩
      · exact hnc g hg2

theorem pairsDone_push_step {cmp : α → α → Int} (tc : TotalCmp cmp) {n : Nat}
    {f : Frame} {rest : List Frame} {arr : Nat → α}
    (hb : f.high < n) (hlh : f.low < f.high)
    (hdisj : ∀ g ∈ rest, FrDisj f g)
    (hP : PairsDone cmp n (f :: rest) arr) :
    PairsDone cmp n
      (kidsOf f.low f.high f.depth (partitionP cmp arr f.low f.high).2 ++ rest)
      (partitionP cmp arr f.low f.high).1 := by
  rcases partition_spec cmp arr hlh with ⟨⟨hp1, hp2⟩, hpv, hle, hgt, hout, hperm⟩
  intro i j hij hjn hnc
  by_cases hi_in : f.low ≤ i ∧ i ≤ f.high
  · by_cases hj_in : f.low ≤ j ∧ j ≤ f.high
    · have hip : i ≤ (partitionP cmp arr f.low f.high).2 := by
        by_contra hip
        apply hnc ⟨(partitionP cmp arr f.low f.high).2 + 1, f.high, f.depth + 1⟩
          (List.mem_append.mpr (Or.inl (kid_right_mem f.depth (by omega))))
        exact ⟨show (partitionP cmp arr f.low f.high).2 + 1 ≤ i by omega, hj_in.2⟩
      have hjp : (partitionP cmp arr f.low f.high).2 ≤ j := by
        by_contra hjp
        apply hnc ⟨f.low, (partitionP cmp arr f.low f.high).2 - 1, f.depth + 1⟩
          (List.mem_append.mpr (Or.inl (kid_left_mem f.depth (by omega))))
        exact ⟨hi_in.1, show j ≤ (partitionP cmp arr f.low f.high).2 - 1 by omega⟩
      rcases Nat.eq_or_lt_of_le hip with he | hilt
      · rw [he]
        exact tc.gt_le (hgt j (by omega) hj_in.2)
      · rcases Nat.eq_or_lt_of_le hjp with he | hjlt
        · rw [← he]
          exact hle i hi_in.1 (by omega)
        · exact tc.trans _ _ _ (hle i hi_in.1 hilt) (tc.gt_le (hgt j hjlt hj_in.2))
    · have hj_hi : f.high < j := by omega
      rcases range_provenance hperm hi_in.1 hi_in.2 with ⟨m, hm1, hm2, hv⟩
      rw [hv, hout j (Or.inr hj_hi)]
      apply hP m j (by omega) hjn
      intro g hg
      rcases List.mem_cons.mp hg with rfl | hg2
      · rintro ⟨hc1, hc2⟩
        omega
      · rintro ⟨hc1, hc2⟩
        rcases hdisj g hg2 with hd | hd
        · omega
        · omega
  · by_cases hj_in : f.low ≤ j ∧ j ≤ f.high
    · have hi_lo : i < f.low := by omega
      rcases range_provenance hperm hj_in.1 hj_in.2 with ⟨m, hm1, hm2, hv⟩
      rw [hv, hout i (Or.inl hi_lo)]
      apply hP i m (by omega) (by omega)
      intro g hg
      rcases List.mem_cons.mp hg with rfl | hg2
      · rintro ⟨hc1, hc2⟩
        omega
      · rintro ⟨hc1, hc2⟩
        rcases hdisj g hg2 with hd | hd
        · omega
        · omega
    · have hi_out : i < f.low ∨ f.high < i := by
        by_cases h1 : i < f.low
        · exact Or.inl h1
        · right
          by_contra h2
          exact hi_in ⟨by omega, by omega⟩
      have hj_out : j < f.low ∨ f.high < j := by
        by_cases hjlo : j < f.low
        · exact Or.inl hjlo
        · right
          by_contra hjh
          exact hj_in ⟨by omega, by omega⟩
      rw [hout i hi_out, hout j hj_out]
      apply hP i j hij hjn
      intro g hg
      rcases List.mem_cons.mp hg with rfl | hg2
      · rintro ⟨hc1, hc2⟩
        exact hi_in ⟨hc1, by omega⟩
      · exact hnc g (List.mem_append.mpr (Or.inr hg2))

theorem introLoop_sorted (cmp : α → α → Int) (tc : TotalCmp cmp) (oracle : Nat → Bool)
    (hor : ∀ k2, oracle k2 = true) (cap limit n : Nat) :
    ∀ (fuel : Nat) (stk : List Frame) (arr : Nat → α) (k : Nat) (arr2 : Nat → α)
      (t : List Log),
      FramesBounded n stk → FramesDisj stk → PairsDone cmp n stk arr →
      introLoop cmp oracle cap limit fuel stk arr k = some (arr2, t) →
      ∀ i j, i < j → j < n → cmp (arr2 i) (arr2 j) ≤ 0 := by
  intro fuel
  induction fuel with
  | zero =>
    intro stk arr k arr2 t hB hD hP heq
    cases stk with
    | nil =>
      rw [introLoop_nil] at heq
      simp only [Option.some.injEq, Prod.mk.injEq] at heq
      obtain ⟨h1, h2⟩ := heq
      subst h1
      intro i j hij hjn
      exact hP i j hij hjn (by intro g hg; exact absurd hg (List.not_mem_nil g))
    | cons f rest =>
      exact absurd heq (by simp [introLoop])
  | succ fuel ih =>
    intro stk arr k arr2 t hB hD hP heq
    cases stk with
    | nil =>
      rw [introLoop_nil] at heq
      simp only [Option.some.injEq, Prod.mk.injEq] at heq
      obtain ⟨h1, h2⟩ := heq
      subst h1
      intro i j hij hjn
      exact hP i j hij hjn (by intro g hg; exact absurd hg (List.not_mem_nil g))
    | cons f rest =>
      rw [introLoop_succ] at heq
      rcases Option.map_eq_some'.mp heq with ⟨⟨arr3, t3⟩, hinner, hmap⟩
      have harr : arr3 = arr2 := congrArg Prod.fst hmap
      subst harr
      have hb : f.high < n := hB f (List.mem_cons_self f rest)
      have hdisj : ∀ g ∈ rest, FrDisj f g := (List.pairwise_cons.mp hD).1
      have hB2 : FramesBounded n rest := fun g hg => hB g (List.mem_cons_of_mem f hg)
      have hD2 : FramesDisj rest := (List.pairwise_cons.mp hD).2
      rcases introStep_cases cmp (oracle k) cap limit f rest arr with
        ⟨hc, hstep⟩ | ⟨hlh, hlen, hstep⟩ | ⟨hlh, hlen, hdep, hstep⟩
        | ⟨hlh, hlen, hdep, hcap, hstep⟩ | ⟨hlh, hlen, hdep, hcap, hstep⟩
      · simp only [hstep, isIns] at hinner
        have hP2 : PairsDone cmp n rest arr := by
          intro i j hij hjn hnc
          apply hP i j hij hjn
          intro g hg
          rcases List.mem_cons.mp hg with rfl | hg2
          · rintro ⟨hc1, hc2⟩
            omega
          · exact hnc g hg2
        exact ih rest arr k arr3 t3 hB2 hD2 hP2 hinner
      · simp only [hstep, isIns] at hinner
        rw [hor k] at hinner
        rcases insertion_sort_spec cmp tc arr (show f.low ≤ f.high by omega) with
          ⟨hs, hout, hperm⟩
        have hP2 : PairsDone cmp n rest (insertion_sort cmp true arr f.low f.high) :=
          pairsDone_sorted_step tc hb (by omega) hdisj hP hs hout hperm
        exact ih rest (insertion_sort cmp true arr f.low f.high) (k+1) arr3 t3 hB2 hD2 hP2 hinner
      · simp only [hstep, isIns] at hinner
        rcases heapsort_spec cmp tc arr hlh with ⟨hs, hout, hperm⟩
        have hP2 : PairsDone cmp n rest (heapsort cmp arr f.low f.high) :=
          pairsDone_sorted_step tc hb (by omega) hdisj hP hs hout hperm
        exact ih rest (heapsort cmp arr f.low f.high) k arr3 t3 hB2 hD2 hP2 hinner
      · simp only [hstep, isIns] at hinner
        rcases partition_spec cmp arr hlh with ⟨⟨hp1, hp2⟩, _, _, _, hpout, hpperm⟩
        rcases heapsort_spec cmp tc (partitionP cmp arr f.low f.high).1 hlh with
          ⟨hs, hout, hperm⟩
        have hout2 : ∀ k2, k2 < f.low ∨ f.high < k2 →
            heapsort cmp (partitionP cmp arr f.low f.high).1 f.low f.high k2 = arr k2 := by
          intro k2 hk2
          rw [hout k2 hk2]
          exact hpout k2 hk2
        have hP2 : PairsDone cmp n rest
            (heapsort cmp (partitionP cmp arr f.low f.high).1 f.low f.high) :=
          pairsDone_sorted_step tc hb (by omega) hdisj hP hs hout2 (hperm.trans hpperm)
        exact ih rest (heapsort cmp (partitionP cmp arr f.low f.high).1 f.low f.high) k
          arr3 t3 hB2 hD2 hP2 hinner
      · simp only [hstep, isIns] at hinner
        rcases partition_spec cmp arr hlh with ⟨⟨hp1, hp2⟩, _, _, _, hpout, hpperm⟩
        have hP2 : PairsDone cmp n
            (kidsOf f.low f.high f.depth (partitionP cmp arr f.low f.high).2 ++ rest)
            (partitionP cmp arr f.low f.high).1 :=
          pairsDone_push_step tc hb hlh hdisj hP
        have hB3 : FramesBounded n
            (kidsOf f.low f.high f.depth (partitionP cmp arr f.low f.high).2 ++ rest) := by
          intro g hg
          rcases List.mem_append.mp hg with hg1 | hg2
          · rcases kidsOf_mem hg1 with ⟨_, rfl⟩ | ⟨_, rfl⟩
            · exact hb
            · show (partitionP cmp arr f.low f.high).2 - 1 < n
              omega
          · exact hB2 g hg2
        have hD3 : FramesDisj
            (kidsOf f.low f.high f.depth (partitionP cmp arr f.low f.high).2 ++ rest) := by
          apply List.pairwise_append.mpr
          refine ⟨kidsOf_pairwise _ _ _ _, hD2, ?_⟩
          intro a ha b hb2
          rcases kidsOf_mem ha with ⟨hpa, rfl⟩ | ⟨hpa, rfl⟩ <;>
            rcases hdisj b hb2 with hd | hd <;> unfold FrDisj <;>
            simp only [] <;> omega
        exact ih (kidsOf f.low f.high f.depth (partitionP cmp arr f.low f.high).2 ++ rest)
          (partitionP cmp arr f.low f.high).1 k arr3 t3 hB3 hD3 hP2 hinner

/-! ### Permutation and locality of the sub-sorters for arbitrary comparators -/

theorem insLoop_permloc (cmp : α → α → Int) (low high : Nat) :
    ∀ (s : Nat) (i : Nat) (arr : Nat → α), i + s = high + 1 → low < i →
      (∀ k, k < low ∨ high < k → insLoop cmp low s i arr k = arr k)
      ∧ (window (insLoop cmp low s i arr) low (high + 1 - low)).Perm
          (window arr low (high + 1 - low)) := by
  intro s
  induction s with
  | zero =>
    intro i arr hi hlow
    exact ⟨fun k _ => rfl, List.Perm.refl _⟩
  | succ s ih =>
    intro i arr hi hlow
    have hstep : insLoop cmp low (s+1) i arr
        = insLoop cmp low s (i+1) (insShift cmp low (arr i) i arr) := by
      simp [insLoop]
    rcases insShift_spec cmp low (arr i) i arr (by omega) with
      ⟨j0, hj1, hj2, hkey, hshift, hout, _, _⟩
    rcases ih (i+1) (insShift cmp low (arr i) i arr) (by omega) (by omega) with ⟨hloc, hperm⟩
    rw [hstep]
    refine ⟨?_, ?_⟩
    · intro k hk
      rw [hloc k hk]
      rcases hk with hk | hk
      · exact hout k (Or.inl (by omega))
      · exact hout k (Or.inr (by omega))
    · apply hperm.trans
      have hperm2 : (window (insShift cmp low (arr i) i arr) low (i + 1 - low)).Perm
          (window arr low (i + 1 - low)) := by
        have hsplit2 : window (insShift cmp low (arr i) i arr) low (i + 1 - low)
            = window (insShift cmp low (arr i) i arr) low (j0 - low)
              ++ insShift cmp low (arr i) i arr j0
                :: window (insShift cmp low (arr i) i arr) (j0+1) (i - j0) := by
          have := @window_split _ (insShift cmp low (arr i) i arr)
            low (i + 1 - low) j0 hj1 (by omega)
          have he : low + (i + 1 - low) - (j0 + 1) = i - j0 := by omega
          rw [he] at this
          exact this
        have hsplit1 : window arr low (i + 1 - low)
            = window arr low (j0 - low) ++ arr j0 :: window arr (j0+1) (i - j0) := by
          have := @window_split _ arr low (i + 1 - low) j0 hj1 (by omega)
          have he : low + (i + 1 - low) - (j0 + 1) = i - j0 := by omega
          rw [he] at this
          exact this
        rw [hsplit2, hsplit1]
        have eA : window (insShift cmp low (arr i) i arr) low (j0 - low)
            = window arr low (j0 - low) := by
          apply window_congr
          intro k hk1 hk2
          exact hout k (Or.inl (by omega))
        rw [eA, hkey]
        apply List.Perm.append_left
        have eB : window (insShift cmp low (arr i) i arr) (j0+1) (i - j0)
            = window arr j0 (i - j0) := by
          apply window_shift_eq
          intro m hm
          have := hshift (j0 + 1 + m) (by omega) (by omega)
          have he : j0 + 1 + m - 1 = j0 + m := by omega
          rw [he] at this
          exact this
        rw [eB]
        have eC : window arr j0 (i - j0) ++ [arr i] = window arr j0 ((i - j0) + 1) := by
          rw [window_concat]
          have he : j0 + (i - j0) = i := by omega
          rw [he]
        have eD : window arr j0 ((i - j0) + 1) = arr j0 :: window arr (j0+1) (i - j0) :=
          window_succ arr j0 (i - j0)
        have hp : (arr i :: window arr j0 (i - j0)).Perm (window arr j0 (i - j0) ++ [arr i]) :=
          (List.perm_append_singleton (arr i) (window arr j0 (i - j0))).symm
        rw [eC, eD] at hp
        exact hp
      apply window_perm_extend (by omega) hperm2
      intro k hk1 hk2
      exact hout k (Or.inr (by omega))

theorem insertion_sort_permloc (cmp : α → α → Int) (ok : Bool) (arr : Nat → α)
    (lo hi : Nat) :
    (∀ k, k < lo ∨ hi < k → insertion_sort cmp ok arr lo hi k = arr k)
    ∧ (window (insertion_sort cmp ok arr lo hi) lo (hi + 1 - lo)).Perm
        (window arr lo (hi + 1 - lo)) := by
  cases ok with
  | false => exact ⟨fun k _ => rfl, List.Perm.refl _⟩
  | true =>
    by_cases h : lo ≤ hi
    · have hins : insertion_sort cmp true arr lo hi = insLoop cmp lo (hi - lo) (lo + 1) arr := by
        simp [insertion_sort]
      rw [hins]
      exact insLoop_permloc cmp lo hi (hi - lo) (lo + 1) arr (by omega) (by omega)
    · have hz : hi - lo = 0 := by omega
      have hins : insertion_sort cmp true arr lo hi = arr := by
        simp [insertion_sort, hz, insLoop]
      rw [hins]
      exact ⟨fun k _ => rfl, List.Perm.refl _⟩

theorem heapifyGo_permloc (cmp : α → α → Int) (off e : Nat) :
    ∀ (f root : Nat) (arr : Nat → α),
      (∀ m, (∀ k, Desc root k → k ≤ e → m ≠ off + k) →
        heapifyGo cmp off e f root arr m = arr m)
      ∧ (window (heapifyGo cmp off e f root arr) off (e + 1)).Perm
          (window arr off (e + 1)) := by
  intro f
  induction f with
  | zero =>
    intro root arr
    exact ⟨fun m _ => rfl, List.Perm.refl _⟩
  | succ f ih =>
    intro root arr
    by_cases hch : 2 * root + 1 ≤ e
    · by_cases hs2 : siftTarget cmp arr off root e = root
      · have hstep : heapifyGo cmp off e (f+1) root arr = arr := by
          rw [heapifyGo_succ, if_pos hch, if_pos hs2]
        rw [hstep]
        exact ⟨fun m _ => rfl, List.Perm.refl _⟩
      · set s2 := siftTarget cmp arr off root e with hs2def
        have hT4 := siftTarget_cases cmp arr off root e
        rw [← hs2def] at hT4
        have hstep : heapifyGo cmp off e (f+1) root arr
            = heapifyGo cmp off e f s2 (swap arr (off + root) (off + s2)) := by
          rw [heapifyGo_succ, if_pos hch, ← hs2def, if_neg hs2]
        clear_value s2
        have hs2gt : root < s2 := by
          rcases hT4 with h | h | h
          · exact absurd h hs2
          · omega
          · omega
        have hs2le : s2 ≤ e := by
          rcases hT4 with h | h | h
          · exact absurd h hs2
          · omega
          · omega
        have hdesc_s2 : Desc root s2 := by
          rcases hT4 with h | h | h
          · exact absurd h hs2
          · rw [h]; exact Desc.left Desc.refl
          · rw [h.1]; exact Desc.right Desc.refl
        rcases ih s2 (swap arr (off + root) (off + s2)) with ⟨G2, G3⟩
        rw [hstep]
        refine ⟨?_, ?_⟩
        · intro m hm
          rw [G2 m (fun k hk hke => hm k (hdesc_s2.trans hk) hke)]
          exact swap_ne arr (hm root Desc.refl (by omega)) (hm s2 hdesc_s2 hs2le)
        · apply G3.trans
          exact window_swap_perm arr (by omega) (by omega) (by omega)
    · have hstep : heapifyGo cmp off e (f+1) root arr = arr := by
        rw [heapifyGo_succ, if_neg hch]
      rw [hstep]
      exact ⟨fun m _ => rfl, List.Perm.refl _⟩

theorem heapify_permloc (cmp : α → α → Int) (off e root : Nat) (arr : Nat → α) :
    (∀ m, (∀ k, Desc root k → k ≤ e → m ≠ off + k) → heapify cmp arr off root e m = arr m)
    ∧ (window (heapify cmp arr off root e) off (e + 1)).Perm (window arr off (e + 1)) :=
  heapifyGo_permloc cmp off e (e+1) root arr

theorem heapBuild_permloc (cmp : α → α → Int) (off e : Nat) :
    ∀ (s : Nat) (arr : Nat → α),
      (∀ m, (∀ k, k ≤ e → m ≠ off + k) → heapBuild cmp off e s arr m = arr m)
      ∧ (window (heapBuild cmp off e s arr) off (e + 1)).Perm (window arr off (e + 1)) := by
  intro s
  induction s with
  | zero =>
    intro arr
    rcases heapifyGo_permloc cmp off e (e+1) 0 arr with ⟨G2, G3⟩
    exact ⟨fun m hm => G2 m (fun k _ hke => hm k hke), G3⟩
  | succ s ih =>
    intro arr
    rcases heapifyGo_permloc cmp off e (e+1) (s+1) arr with ⟨H2, H3⟩
    rcases ih (heapify cmp arr off (s+1) e) with ⟨G2, G3⟩
    have hstep : heapBuild cmp off e (s+1) arr
        = heapBuild cmp off e s (heapify cmp arr off (s+1) e) := by
      rw [heapBuild]
    rw [hstep]
    refine ⟨?_, ?_⟩
    · intro m hm
      rw [G2 m hm]
      exact H2 m (fun k _ hke => hm k hke)
    · exact G3.trans H3

theorem heapExtract_permloc (cmp : α → α → Int) (off E0 : Nat) :
    ∀ (e : Nat) (arr : Nat → α), e ≤ E0 →
      (∀ m, (∀ k, k ≤ e → m ≠ off + k) → heapExtract cmp off e arr m = arr m)
      ∧ (window (heapExtract cmp off e arr) off (E0 + 1)).Perm (window arr off (E0 + 1)) := by
  intro e
  induction e with
  | zero =>
    intro arr hE
    exact ⟨fun m _ => rfl, List.Perm.refl _⟩
  | succ e ih =>
    intro arr hE
    have hstep : heapExtract cmp off (e+1) arr
        = heapExtract cmp off e
            (heapify cmp (swap arr off (off + (e+1))) off 0 e) := by
      rw [heapExtract]
    rcases heapify_permloc cmp off e 0 (swap arr off (off + (e+1))) with ⟨H2, H3⟩
    rcases ih (heapify cmp (swap arr off (off + (e+1))) off 0 e) (by omega) with ⟨G2, G3⟩
    rw [hstep]
    refine ⟨?_, ?_⟩
    · intro m hm
      rw [G2 m (fun k hke => hm k (by omega))]
      rw [H2 m (fun k _ hke => hm k (by omega))]
      have hm0 : m ≠ off := by
        have := hm 0 (by omega)
        omega
      exact swap_ne arr hm0 (hm (e+1) (Nat.le_refl _))
    · apply G3.trans
      have hBperm : (window (heapify cmp (swap arr off (off + (e+1))) off 0 e) off (E0 + 1)).Perm
          (window (swap arr off (off + (e+1))) off (E0 + 1)) := by
        apply window_perm_extend (show e + 1 ≤ E0 + 1 by omega) H3
        intro k hk1 hk2
        apply H2
        intro k2 hk2d hk2e
        omega
      apply hBperm.trans
      exact window_swap_perm arr (Nat.le_refl off) (by omega) (by omega)

theorem heapsort_permloc (cmp : α → α → Int) (arr : Nat → α) {lo hi : Nat} (h : lo < hi) :
    (∀ k, k < lo ∨ hi < k → heapsort cmp arr lo hi k = arr k)
    ∧ (window (heapsort cmp arr lo hi) lo (hi + 1 - lo)).Perm
        (window arr lo (hi + 1 - lo)) := by
  have hsrt : heapsort cmp arr lo hi
      = heapExtract cmp lo (hi - lo)
          (heapBuild cmp lo (hi - lo) ((hi - lo + 1 - 2) / 2) arr) := by
    simp only [heapsort]
    have h1 : hi - lo + 1 - 1 = hi - lo := by omega
    rw [h1]
  rcases heapBuild_permloc cmp lo (hi - lo) ((hi - lo + 1 - 2) / 2) arr with ⟨B2, B3⟩
  rcases heapExtract_permloc cmp lo (hi - lo) (hi - lo)
      (heapBuild cmp lo (hi - lo) ((hi - lo + 1 - 2) / 2) arr) (Nat.le_refl _) with ⟨L, P⟩
  refine ⟨?_, ?_⟩
  · intro k hk
    rw [hsrt]
    have hLk := L k (by intro k2 hk2; omega)
    rw [hLk]
    exact B2 k (by intro k2 hk2; omega)
  · rw [hsrt, show hi + 1 - lo = (hi - lo) + 1 from by omega]
    exact P.trans B3

theorem introLoop_perm (cmp : α → α → Int) (oracle : Nat → Bool) (cap limit n : Nat) :
    ∀ (fuel : Nat) (stk : List Frame) (arr : Nat → α) (k : Nat) (arr2 : Nat → α)
      (t : List Log),
      FramesBounded n stk →
      introLoop cmp oracle cap limit fuel stk arr k = some (arr2, t) →
      (window arr2 0 n).Perm (window arr 0 n) := by
  intro fuel
  induction fuel with
  | zero =>
    intro stk arr k arr2 t hB heq
    cases stk with
    | nil =>
      rw [introLoop_nil] at heq
      simp only [Option.some.injEq, Prod.mk.injEq] at heq
      obtain ⟨h1, h2⟩ := heq
      subst h1
      exact List.Perm.refl _
    | cons f rest =>
      exact absurd heq (by simp [introLoop])
  | succ fuel ih =>
    intro stk arr k arr2 t hB heq
    cases stk with
    | nil =>
      rw [introLoop_nil] at heq
      simp only [Option.some.injEq, Prod.mk.injEq] at heq
      obtain ⟨h1, h2⟩ := heq
      subst h1
      exact List.Perm.refl _
    | cons f rest =>
      rw [introLoop_succ] at heq
      rcases Option.map_eq_some'.mp heq with ⟨⟨arr3, t3⟩, hinner, hmap⟩
      have harr : arr3 = arr2 := congrArg Prod.fst hmap
      subst harr
      have hb : f.high < n := hB f (List.mem_cons_self f rest)
      have hB2 : FramesBounded n rest := fun g hg => hB g (List.mem_cons_of_mem f hg)
      rcases introStep_cases cmp (oracle k) cap limit f rest arr with
        ⟨hc, hstep⟩ | ⟨hlh, hlen, hstep⟩ | ⟨hlh, hlen, hdep, hstep⟩
        | ⟨hlh, hlen, hdep, hcap, hstep⟩ | ⟨hlh, hlen, hdep, hcap, hstep⟩
      · simp only [hstep, isIns] at hinner
        exact ih rest arr k arr3 t3 hB2 hinner
      · simp only [hstep, isIns] at hinner
        rcases insertion_sort_permloc cmp (oracle k) arr f.low f.high with ⟨hout, hperm⟩
        exact (ih rest _ (k+1) arr3 t3 hB2 hinner).trans
          (window_perm_patch hb (by omega) hperm (fun k2 hk2 => hout k2 hk2))
      · simp only [hstep, isIns] at hinner
        rcases heapsort_permloc cmp arr hlh with ⟨hout, hperm⟩
        exact (ih rest _ k arr3 t3 hB2 hinner).trans
          (window_perm_patch hb (by omega) hperm (fun k2 hk2 => hout k2 hk2))
      · simp only [hstep, isIns] at hinner
        rcases partition_spec cmp arr hlh with ⟨⟨hp1, hp2⟩, _, _, _, hpout, hpperm⟩
        rcases heapsort_permloc cmp (partitionP cmp arr f.low f.high).1 hlh with ⟨hout, hperm⟩
        have hcomb : ∀ k2, k2 < f.low ∨ f.high < k2 →
            heapsort cmp (partitionP cmp arr f.low f.high).1 f.low f.high k2 = arr k2 := by
          intro k2 hk2
          rw [hout k2 hk2]
          exact hpout k2 hk2
        exact (ih rest _ k arr3 t3 hB2 hinner).trans
          (window_perm_patch hb (by omega) (hperm.trans hpperm) hcomb)
      · simp only [hstep, isIns] at hinner
        rcases partition_spec cmp arr hlh with ⟨⟨hp1, hp2⟩, _, _, _, hpout, hpperm⟩
        have hB3 : FramesBounded n
            (kidsOf f.low f.high f.depth (partitionP cmp arr f.low f.high).2 ++ rest) := by
          intro g hg
          rcases List.mem_append.mp hg with hg1 | hg2
          · rcases kidsOf_mem hg1 with ⟨_, rfl⟩ | ⟨_, rfl⟩
            · exact hb
            · show (partitionP cmp arr f.low f.high).2 - 1 < n
              omega
          · exact hB2 g hg2
        exact (ih _ _ k arr3 t3 hB3 hinner).trans
          (window_perm_patch hb (by omega) hpperm hpout)

theorem introLoop_untouched (cmp : α → α → Int) (oracle : Nat → Bool) (cap limit : Nat) :
    ∀ (fuel : Nat) (stk : List Frame) (arr : Nat → α) (k : Nat) (arr2 : Nat → α)
      (t : List Log) (i : Nat),
      introLoop cmp oracle cap limit fuel stk arr k = some (arr2, t) →
      (∀ f ∈ stk, i < f.low ∨ f.high < i) →
      arr2 i = arr i := by
  intro fuel
  induction fuel with
  | zero =>
    intro stk arr k arr2 t i heq hout
    cases stk with
    | nil =>
      rw [introLoop_nil] at heq
      simp only [Option.some.injEq, Prod.mk.injEq] at heq
      obtain ⟨h1, h2⟩ := heq
      subst h1
      rfl
    | cons f rest =>
      exact absurd heq (by simp [introLoop])
  | succ fuel ih =>
    intro stk arr k arr2 t i heq hout
    cases stk with
    | nil =>
      rw [introLoop_nil] at heq
      simp only [Option.some.injEq, Prod.mk.injEq] at heq
      obtain ⟨h1, h2⟩ := heq
      subst h1
      rfl
    | cons f rest =>
      rw [introLoop_succ] at heq
      rcases Option.map_eq_some'.mp heq with ⟨⟨arr3, t3⟩, hinner, hmap⟩
      have harr : arr3 = arr2 := congrArg Prod.fst hmap
      subst harr
      have hf := hout f (List.mem_cons_self f rest)
      have hout2 : ∀ g ∈ rest, i < g.low ∨ g.high < i :=
        fun g hg => hout g (List.mem_cons_of_mem f hg)
      rcases introStep_cases cmp (oracle k) cap limit f rest arr with
        ⟨hc, hstep⟩ | ⟨hlh, hlen, hstep⟩ | ⟨hlh, hlen, hdep, hstep⟩
        | ⟨hlh, hlen, hdep, hcap, hstep⟩ | ⟨hlh, hlen, hdep, hcap, hstep⟩
      · simp only [hstep, isIns] at hinner
        exact ih rest arr k arr3 t3 i hinner hout2
      · simp only [hstep, isIns] at hinner
        rcases insertion_sort_permloc cmp (oracle k) arr f.low f.high with ⟨ho, _⟩
        rw [ih rest _ (k+1) arr3 t3 i hinner hout2]
        exact ho i hf
      · simp only [hstep, isIns] at hinner
        rcases heapsort_permloc cmp arr hlh with ⟨ho, _⟩
        rw [ih rest _ k arr3 t3 i hinner hout2]
        exact ho i hf
      · simp only [hstep, isIns] at hinner
        rcases partition_spec cmp arr hlh with ⟨⟨hp1, hp2⟩, _, _, _, hpout, _⟩
        rcases heapsort_permloc cmp (partitionP cmp arr f.low f.high).1 hlh with ⟨ho, _⟩
        rw [ih rest _ k arr3 t3 i hinner hout2, ho i hf]
        exact hpout i hf
      · simp only [hstep, isIns] at hinner
        rcases partition_spec cmp arr hlh with ⟨⟨hp1, hp2⟩, _, _, _, hpout, _⟩
        have hout3 : ∀ g ∈ kidsOf f.low f.high f.depth (partitionP cmp arr f.low f.high).2
            ++ rest, i < g.low ∨ g.high < i := by
          intro g hg
          rcases List.mem_append.mp hg with hg1 | hg2
          · rcases kidsOf_mem hg1 with ⟨hpp, rfl⟩ | ⟨hpp, rfl⟩
            · show i < (partitionP cmp arr f.low f.high).2 + 1 ∨ f.high < i
              omega
            · show i < f.low ∨ (partitionP cmp arr f.low f.high).2 - 1 < i
              omega
          · exact hout2 g hg2
        rw [ih _ _ k arr3 t3 i hinner hout3]
        exact hpout i hf

theorem introLoop_total (cmp : α → α → Int) (oracle : Nat → Bool) (cap limit : Nat) :
    ∀ (fuel : Nat) (stk : List Frame) (arr : Nat → α) (k : Nat), stackWt stk ≤ fuel →
      (introLoop cmp oracle cap limit fuel stk arr k).isSome = true := by
  intro fuel
  induction fuel with
  | zero =>
    intro stk arr k hwt
    cases stk with
    | nil => rw [introLoop_nil]; rfl
    | cons f rest =>
      rw [stackWt_cons] at hwt
      unfold frameWt at hwt
      omega
  | succ fuel ih =>
    intro stk arr k hwt
    cases stk with
    | nil => rw [introLoop_nil]; rfl
    | cons f rest =>
      rw [introLoop_succ, Option.isSome_map']
      rw [stackWt_cons] at hwt
      have hfw : 1 ≤ frameWt f := by unfold frameWt; omega
      rcases introStep_cases cmp (oracle k) cap limit f rest arr with
        ⟨hc, hstep⟩ | ⟨hlh, hlen, hstep⟩ | ⟨hlh, hlen, hdep, hstep⟩
        | ⟨hlh, hlen, hdep, hcap, hstep⟩ | ⟨hlh, hlen, hdep, hcap, hstep⟩
      · simp only [hstep, isIns]
        exact ih rest arr k (by omega)
      · simp only [hstep, isIns]
        exact ih rest _ (k+1) (by omega)
      · simp only [hstep, isIns]
        exact ih rest _ k (by omega)
      · simp only [hstep, isIns]
        exact ih rest _ k (by omega)
      · simp only [hstep, isIns]
        rcases partition_spec cmp arr hlh with ⟨⟨hp1, hp2⟩, _, _, _, _, _⟩
        apply ih _ _ k
        rw [stackWt_append]
        have hkw := kidsOf_wt f.depth hp1 hp2 hlh
        have hfw2 : frameWt ⟨f.low, f.high, f.depth⟩ = frameWt f := rfl
        omega

theorem introLoop_trace (cmp : α → α → Int) (oracle : Nat → Bool) (cap limit n : Nat) :
    ∀ (fuel : Nat) (stk : List Frame) (arr : Nat → α) (k : Nat) (arr2 : Nat → α)
      (t : List Log),
      FramesBounded n stk → stk.length ≤ cap →
      introLoop cmp oracle cap limit fuel stk arr k = some (arr2, t) →
      ∀ l ∈ t,
        l.frame.high < n ∧ l.rest + 1 ≤ cap
        ∧ ((l.frame.high ≤ l.frame.low ∧ l.dec = .discard)
          ∨ (l.frame.low < l.frame.high ∧ l.frame.high - l.frame.low + 1 < 16
              ∧ ∃ ok, l.dec = .ins l.frame.low l.frame.high ok)
          ∨ (l.frame.low < l.frame.high ∧ 16 ≤ l.frame.high - l.frame.low + 1
              ∧ limit ≤ l.frame.depth ∧ l.dec = .heapLimit l.frame.low l.frame.high)
          ∨ (l.frame.low < l.frame.high ∧ 16 ≤ l.frame.high - l.frame.low + 1
              ∧ l.frame.depth < limit
              ∧ ∃ p, l.frame.low ≤ p ∧ p ≤ l.frame.high
                ∧ ((cap ≤ l.rest + ftpOf l.frame.low l.frame.high p
                      ∧ l.dec = .heapFull l.frame.low l.frame.high p)
                  ∨ (l.rest + ftpOf l.frame.low l.frame.high p < cap
                      ∧ l.dec = .push l.frame.low l.frame.high p)))) := by
  intro fuel
  induction fuel with
  | zero =>
    intro stk arr k arr2 t hB hL heq
    cases stk with
    | nil =>
      rw [introLoop_nil] at heq
      simp only [Option.some.injEq, Prod.mk.injEq] at heq
      obtain ⟨h1, h2⟩ := heq
      intro l hl
      rw [← h2] at hl
      exact absurd hl (List.not_mem_nil l)
    | cons f rest =>
      exact absurd heq (by simp [introLoop])
  | succ fuel ih =>
    intro stk arr k arr2 t hB hL heq
    cases stk with
    | nil =>
      rw [introLoop_nil] at heq
      simp only [Option.some.injEq, Prod.mk.injEq] at heq
      obtain ⟨h1, h2⟩ := heq
      intro l hl
      rw [← h2] at hl
      exact absurd hl (List.not_mem_nil l)
    | cons f rest =>
      rw [introLoop_succ] at heq
      rcases Option.map_eq_some'.mp heq with ⟨⟨arr3, t3⟩, hinner, hmap⟩
      have ht : (⟨f, rest.length, (introStep cmp (oracle k) cap limit f rest arr).2.2⟩ : Log)
          :: t3 = t := congrArg Prod.snd hmap
      have hb : f.high < n := hB f (List.mem_cons_self f rest)
      have hB2 : FramesBounded n rest := fun g hg => hB g (List.mem_cons_of_mem f hg)
      have hLen : rest.length + 1 ≤ cap := by
        have : (f :: rest).length = rest.length + 1 := rfl
        omega
      intro l hl
      rw [← ht] at hl
      rcases introStep_cases cmp (oracle k) cap limit f rest arr with
        ⟨hc, hstep⟩ | ⟨hlh, hlen, hstep⟩ | ⟨hlh, hlen, hdep, hstep⟩
        | ⟨hlh, hlen, hdep, hcap, hstep⟩ | ⟨hlh, hlen, hdep, hcap, hstep⟩
      · rcases List.mem_cons.mp hl with rfl | hl2
        · simp only [hstep]
          exact ⟨hb, hLen, Or.inl ⟨hc, trivial⟩⟩
        · simp only [hstep, isIns] at hinner
          exact ih rest arr k arr3 t3 hB2 (by omega) hinner l hl2
      · rcases List.mem_cons.mp hl with rfl | hl2
        · simp only [hstep]
          exact ⟨hb, hLen, Or.inr (Or.inl ⟨hlh, hlen, ⟨oracle k, rfl⟩⟩)⟩
        · simp only [hstep, isIns] at hinner
          exact ih rest _ (k+1) arr3 t3 hB2 (by omega) hinner l hl2
      · rcases List.mem_cons.mp hl with rfl | hl2
        · simp only [hstep]
          exact ⟨hb, hLen, Or.inr (Or.inr (Or.inl ⟨hlh, hlen, hdep, trivial⟩))⟩
        · simp only [hstep, isIns] at hinner
          exact ih rest _ k arr3 t3 hB2 (by omega) hinner l hl2
      · rcases partition_spec cmp arr hlh with ⟨⟨hp1, hp2⟩, _, _, _, _, _⟩
        rw [kidsOf_length] at hcap
        rcases List.mem_cons.mp hl with rfl | hl2
        · simp only [hstep]
          exact ⟨hb, hLen, Or.inr (Or.inr (Or.inr ⟨hlh, hlen, hdep,
            (partitionP cmp arr f.low f.high).2, hp1, hp2, Or.inl ⟨hcap, rfl⟩⟩))⟩
        · simp only [hstep, isIns] at hinner
          exact ih rest _ k arr3 t3 hB2 (by omega) hinner l hl2
      · rcases partition_spec cmp arr hlh with ⟨⟨hp1, hp2⟩, _, _, _, _, _⟩
        have hcap2 := hcap
        rw [kidsOf_length] at hcap2
        rcases List.mem_cons.mp hl with rfl | hl2
        · simp only [hstep]
          exact ⟨hb, hLen, Or.inr (Or.inr (Or.inr ⟨hlh, hlen, hdep,
            (partitionP cmp arr f.low f.high).2, hp1, hp2, Or.inr ⟨hcap2, rfl⟩⟩))⟩
        · simp only [hstep, isIns] at hinner
          have hB3 : FramesBounded n
              (kidsOf f.low f.high f.depth (partitionP cmp arr f.low f.high).2 ++ rest) := by
            intro g hg
            rcases List.mem_append.mp hg with hg1 | hg2
            · rcases kidsOf_mem hg1 with ⟨_, rfl⟩ | ⟨_, rfl⟩
              · exact hb
              · show (partitionP cmp arr f.low f.high).2 - 1 < n
                omega
            · exact hB2 g hg2
          have hL3 : (kidsOf f.low f.high f.depth (partitionP cmp arr f.low f.high).2
              ++ rest).length ≤ cap := by
            rw [List.length_append, kidsOf_length]
            omega
          exact ih _ _ k arr3 t3 hB3 hL3 hinner l hl2

theorem introLoop_ins_sorted (cmp : α → α → Int) (tc : TotalCmp cmp) (oracle : Nat → Bool)
    (cap limit n : Nat) :
    ∀ (fuel : Nat) (stk : List Frame) (arr : Nat → α) (k : Nat) (arr2 : Nat → α)
      (t : List Log),
      FramesBounded n stk → FramesDisj stk →
      introLoop cmp oracle cap limit fuel stk arr k = some (arr2, t) →
      ∀ l ∈ t, ∀ lo hi, l.dec = .ins lo hi true → SortedRange cmp arr2 lo hi := by
  intro fuel
  induction fuel with
  | zero =>
    intro stk arr k arr2 t hB hD heq
    cases stk with
    | nil =>
      rw [introLoop_nil] at heq
      simp only [Option.some.injEq, Prod.mk.injEq] at heq
      obtain ⟨h1, h2⟩ := heq
      intro l hl
      rw [← h2] at hl
      exact absurd hl (List.not_mem_nil l)
    | cons f rest =>
      exact absurd heq (by simp [introLoop])
  | succ fuel ih =>
    intro stk arr k arr2 t hB hD heq
    cases stk with
    | nil =>
      rw [introLoop_nil] at heq
      simp only [Option.some.injEq, Prod.mk.injEq] at heq
      obtain ⟨h1, h2⟩ := heq
      intro l hl
      rw [← h2] at hl
      exact absurd hl (List.not_mem_nil l)
    | cons f rest =>
      rw [introLoop_succ] at heq
      rcases Option.map_eq_some'.mp heq with ⟨⟨arr3, t3⟩, hinner, hmap⟩
      have harr : arr3 = arr2 := congrArg Prod.fst hmap
      subst harr
      have ht : (⟨f, rest.length, (introStep cmp (oracle k) cap limit f rest arr).2.2⟩ : Log)
          :: t3 = t := congrArg Prod.snd hmap
      have hb : f.high < n := hB f (List.mem_cons_self f rest)
      have hdisj : ∀ g ∈ rest, FrDisj f g := (List.pairwise_cons.mp hD).1
      have hB2 : FramesBounded n rest := fun g hg => hB g (List.mem_cons_of_mem f hg)
      have hD2 : FramesDisj rest := (List.pairwise_cons.mp hD).2
      intro l hl
      rw [← ht] at hl
      rcases introStep_cases cmp (oracle k) cap limit f rest arr with
        ⟨hc, hstep⟩ | ⟨hlh, hlen, hstep⟩ | ⟨hlh, hlen, hdep, hstep⟩
        | ⟨hlh, hlen, hdep, hcap, hstep⟩ | ⟨hlh, hlen, hdep, hcap, hstep⟩
      · simp only [hstep, isIns] at hinner
        rcases List.mem_cons.mp hl with rfl | hl2
        · intro lo hi hdec
          simp only [hstep] at hdec
          exact absurd hdec (by simp)
        · exact ih rest arr k arr3 t3 hB2 hD2 hinner l hl2
      · simp only [hstep, isIns] at hinner
        rcases List.mem_cons.mp hl with rfl | hl2
        · intro lo hi hdec
          simp only [hstep] at hdec
          injection hdec with hlo hhi hok
          rw [hok] at hinner
          rcases insertion_sort_spec cmp tc arr (show f.low ≤ f.high by omega) with
            ⟨hs, _, _⟩
          intro t2 h1 h2
          have hu1 : arr3 t2 = insertion_sort cmp true arr f.low f.high t2 := by
            apply introLoop_untouched cmp oracle cap limit fuel rest _ (k+1) arr3 t3 t2 hinner
            intro g hg
            rcases hdisj g hg with hd | hd
            · omega
            · omega
          have hu2 : arr3 (t2+1) = insertion_sort cmp true arr f.low f.high (t2+1) := by
            apply introLoop_untouched cmp oracle cap limit fuel rest _ (k+1) arr3 t3 (t2+1) hinner
            intro g hg
            rcases hdisj g hg with hd | hd
            · omega
            · omega
          rw [hu1, hu2]
          exact hs t2 (by omega) (by omega)
        · exact ih rest _ (k+1) arr3 t3 hB2 hD2 hinner l hl2
      · simp only [hstep, isIns] at hinner
        rcases List.mem_cons.mp hl with rfl | hl2
        · intro lo hi hdec
          simp only [hstep] at hdec
          exact absurd hdec (by simp)
        · exact ih rest _ k arr3 t3 hB2 hD2 hinner l hl2
      · simp only [hstep, isIns] at hinner
        rcases List.mem_cons.mp hl with rfl | hl2
        · intro lo hi hdec
          simp only [hstep] at hdec
          exact absurd hdec (by simp)
        · exact ih rest _ k arr3 t3 hB2 hD2 hinner l hl2
      · simp only [hstep, isIns] at hinner
        rcases partition_spec cmp arr hlh with ⟨⟨hp1, hp2⟩, _, _, _, _, _⟩
        rcases List.mem_cons.mp hl with rfl | hl2
        · intro lo hi hdec
          simp only [hstep] at hdec
          exact absurd hdec (by simp)
        · have hB3 : FramesBounded n
              (kidsOf f.low f.high f.depth (partitionP cmp arr f.low f.high).2 ++ rest) := by
            intro g hg
            rcases List.mem_append.mp hg with hg1 | hg2
            · rcases kidsOf_mem hg1 with ⟨_, rfl⟩ | ⟨_, rfl⟩
              · exact hb
              · show (partitionP cmp arr f.low f.high).2 - 1 < n
                omega
            · exact hB2 g hg2
          have hD3 : FramesDisj
              (kidsOf f.low f.high f.depth (partitionP cmp arr f.low f.high).2 ++ rest) := by
            apply List.pairwise_append.mpr
            refine ⟨kidsOf_pairwise _ _ _ _, hD2, ?_⟩
            intro a ha b hb2
            rcases kidsOf_mem ha with ⟨hpa, rfl⟩ | ⟨hpa, rfl⟩ <;>
              rcases hdisj b hb2 with hd | hd <;> unfold FrDisj <;>
              simp only [] <;> omega
          exact ih _ _ k arr3 t3 hB3 hD3 hinner l hl2

/-! ### Bridging nu_sort to the dispatch loop -/

theorem natCmp_total : TotalCmp natCmp := by
  constructor
  · intro a b h
    unfold natCmp at *
    omega
  · intro a b c h1 h2
    unfold natCmp at *
    omega

theorem initFrames_bounded (n : Nat) (hn : 1 ≤ n) : FramesBounded n [⟨0, n - 1, 0⟩] := by
  intro f hf
  rw [List.mem_singleton] at hf
  subst hf
  show n - 1 < n
  omega

theorem initFrames_disj (f : Frame) : FramesDisj [f] :=
  List.Pairwise.cons (fun b hb => absurd hb (List.not_mem_nil b)) List.Pairwise.nil

theorem initFrames_done (cmp : α → α → Int) (n : Nat) (arr : Nat → α) (hn : 1 ≤ n) :
    PairsDone cmp n [⟨0, n - 1, 0⟩] arr := by
  intro a b hab hbn hnc
  refine absurd ⟨Nat.zero_le a, ?_⟩ (hnc ⟨0, n - 1, 0⟩ (List.mem_singleton_self _))
  show b ≤ n - 1
  omega

theorem nuRun_isSome (cmp : α → α → Int) (oracle : Nat → Bool) (arr : Nat → α) (n : Nat) :
    (nuRun cmp oracle arr n).isSome = true := by
  unfold nuRun
  apply introLoop_total
  have h1 : stackWt [(⟨0, n - 1, 0⟩ : Frame)] = 2 * (n - 1 + 1 - 0) + 1 := rfl
  rw [h1]
  unfold nuFuel
  omega

theorem guard_bounds {n size : Nat}
    (hg : ¬ ((false : Bool) = true ∨ (false : Bool) = true ∨ n ≤ 1 ∨ size = 0)) :
    2 ≤ n ∧ size ≠ 0 := by
  constructor
  · by_contra hc
    exact hg (Or.inr (Or.inr (Or.inl (by omega))))
  · intro hc
    exact hg (Or.inr (Or.inr (Or.inr hc)))

theorem nuRun_parts (cmp : α → α → Int) (oracle : Nat → Bool) (arr : Nat → α)
    (n size : Nat) (hn : 2 ≤ n) (hs : size ≠ 0) :
    nuRun cmp oracle arr n =
      some (nu_sort false false cmp oracle arr n size,
            nuTrace false false cmp oracle arr n size) := by
  have hg : ¬ ((false : Bool) = true ∨ (false : Bool) = true ∨ n ≤ 1 ∨ size = 0) := by
    rintro (h | h | h | h)
    · exact Bool.false_ne_true h
    · exact Bool.false_ne_true h
    · omega
    · exact hs h
  rcases Option.isSome_iff_exists.mp (nuRun_isSome cmp oracle arr n) with ⟨⟨arr2, t⟩, heq⟩
  unfold nu_sort nuTrace
  rw [if_neg hg, if_neg hg, heq]

/-- Every entry of the iteration log of a nu_sort call: the popped frame is in
bounds, the stack including it fits in the 64 frames, and the decision follows
the four-way dispatch of introsort_impl with limit 2 * floor_log2 n and cap 64. -/
theorem nuTrace_spec (cmp : α → α → Int) (oracle : Nat → Bool) (arr : Nat → α)
    (n size : Nat) :
    ∀ l ∈ nuTrace false false cmp oracle arr n size,
      l.frame.high < n ∧ l.rest + 1 ≤ 64
      ∧ ((l.frame.high ≤ l.frame.low ∧ l.dec = .discard)
        ∨ (l.frame.low < l.frame.high ∧ l.frame.high - l.frame.low + 1 < 16
            ∧ ∃ ok, l.dec = .ins l.frame.low l.frame.high ok)
        ∨ (l.frame.low < l.frame.high ∧ 16 ≤ l.frame.high - l.frame.low + 1
            ∧ 2 * floor_log2 n ≤ l.frame.depth
            ∧ l.dec = .heapLimit l.frame.low l.frame.high)
        ∨ (l.frame.low < l.frame.high ∧ 16 ≤ l.frame.high - l.frame.low + 1
            ∧ l.frame.depth < 2 * floor_log2 n
            ∧ ∃ p, l.frame.low ≤ p ∧ p ≤ l.frame.high
              ∧ ((64 ≤ l.rest + ftpOf l.frame.low l.frame.high p
                    ∧ l.dec = .heapFull l.frame.low l.frame.high p)
                ∨ (l.rest + ftpOf l.frame.low l.frame.high p < 64
                    ∧ l.dec = .push l.frame.low l.frame.high p)))) := by
  by_cases hg : (false : Bool) = true ∨ (false : Bool) = true ∨ n ≤ 1 ∨ size = 0
  · intro l hl
    unfold nuTrace at hl
    rw [if_pos hg] at hl
    exact absurd hl (List.not_mem_nil l)
  · obtain ⟨hn, hs⟩ := guard_bounds hg
    have heq : introLoop cmp oracle 64 (2 * floor_log2 n) (nuFuel n) [⟨0, n - 1, 0⟩] arr 0
        = some (nu_sort false false cmp oracle arr n size,
                nuTrace false false cmp oracle arr n size) :=
      nuRun_parts cmp oracle arr n size hn hs
    exact introLoop_trace cmp oracle 64 (2 * floor_log2 n) n (nuFuel n)
      [⟨0, n - 1, 0⟩] arr 0 _ _ (initFrames_bounded n (by omega)) (by simp) heq

/-! ### The claims -/

/-- Claim C1: for every array of n ≥ 2 elements with positive element size and a
comparator consistent with a total order, if every insertion-sort buffer
allocation succeeds, the array after nu_sort is sorted ascending: every
adjacent pair satisfies cmp (a i) (a (i+1)) ≤ 0. -/
theorem C1_sorted (cmp : α → α → Int) (tc : TotalCmp cmp) (oracle : Nat → Bool)
    (hor : ∀ k, oracle k = true) (arr : Nat → α) (n size : Nat)
    (hn : 2 ≤ n) (hs : size ≠ 0) :
    ∀ i, i + 1 < n →
      cmp (nu_sort false false cmp oracle arr n size i)
          (nu_sort false false cmp oracle arr n size (i + 1)) ≤ 0 := by
  intro i hi
  have heq : introLoop cmp oracle 64 (2 * floor_log2 n) (nuFuel n) [⟨0, n - 1, 0⟩] arr 0
      = some (nu_sort false false cmp oracle arr n size,
              nuTrace false false cmp oracle arr n size) :=
    nuRun_parts cmp oracle arr n size hn hs
  exact introLoop_sorted cmp tc oracle hor 64 (2 * floor_log2 n) n (nuFuel n)
    [⟨0, n - 1, 0⟩] arr 0 _ _ (initFrames_bounded n (by omega)) (initFrames_disj _)
    (initFrames_done cmp n arr (by omega)) heq i (i + 1) (by omega) hi

theorem C1_witness :
    natCmp (nu_sort false false natCmp (fun _ => true) (arrOfList [3, 1, 2]) 3 4 0)
        (nu_sort false false natCmp (fun _ => true) (arrOfList [3, 1, 2]) 3 4 1) ≤ 0
    ∧ natCmp (nu_sort false false natCmp (fun _ => true) (arrOfList [3, 1, 2]) 3 4 1)
        (nu_sort false false natCmp (fun _ => true) (arrOfList [3, 1, 2]) 3 4 2) ≤ 0 :=
  ⟨C1_sorted natCmp natCmp_total (fun _ => true) (fun _ => rfl) (arrOfList [3, 1, 2]) 3 4
      (by decide) (by decide) 0 (by decide),
   C1_sorted natCmp natCmp_total (fun _ => true) (fun _ => rfl) (arrOfList [3, 1, 2]) 3 4
      (by decide) (by decide) 1 (by decide)⟩

/-- Claim C2: for every valid input (n ≥ 2, positive element size), if every
insertion-sort buffer allocation succeeds, the n element window of the array
after nu_sort is a permutation of the input window: no element value is
created, lost or corrupted. -/
theorem C2_permutation (cmp : α → α → Int) (oracle : Nat → Bool)
    (hor : ∀ k, oracle k = true) (arr : Nat → α) (n size : Nat)
    (hn : 2 ≤ n) (hs : size ≠ 0) :
    (window (nu_sort false false cmp oracle arr n size) 0 n).Perm (window arr 0 n) := by
  have heq : introLoop cmp oracle 64 (2 * floor_log2 n) (nuFuel n) [⟨0, n - 1, 0⟩] arr 0
      = some (nu_sort false false cmp oracle arr n size,
              nuTrace false false cmp oracle arr n size) :=
    nuRun_parts cmp oracle arr n size hn hs
  exact introLoop_perm cmp oracle 64 (2 * floor_log2 n) n (nuFuel n)
    [⟨0, n - 1, 0⟩] arr 0 _ _ (initFrames_bounded n (by omega)) heq

theorem C2_witness :
    (window (nu_sort false false natCmp (fun _ => true) (arrOfList [2, 1]) 2 4) 0 2).Perm
      (window (arrOfList [2, 1]) 0 2) :=
  C2_permutation natCmp (fun _ => true) (fun _ => rfl) (arrOfList [2, 1]) 2 4
    (by decide) (by decide)

/-- Claim C3, amended: the depth limit is 2 * floor_log2 n, and every logged
frame whose depth has reached it is never partitioned further (no push, no
capacity fallback); it goes to the heap sorter exactly when its length is at
least 16, while shorter frames go to insertion sort (the frozen claim says all
such frames go to the heap sorter, which the counterexample C3_cex refutes). -/
theorem C3_depth_limit (cmp : α → α → Int) (oracle : Nat → Bool) (arr : Nat → α)
    (n size : Nat) :
    ∀ l ∈ nuTrace false false cmp oracle arr n size,
      2 * floor_log2 n ≤ l.frame.depth →
        (∀ lo hi p, l.dec ≠ Dec.push lo hi p)
        ∧ (∀ lo hi p, l.dec ≠ Dec.heapFull lo hi p)
        ∧ (l.frame.low < l.frame.high → 16 ≤ l.frame.high - l.frame.low + 1 →
            l.dec = Dec.heapLimit l.frame.low l.frame.high) := by
  intro l hl hdep
  rcases (nuTrace_spec cmp oracle arr n size l hl).2.2 with
    ⟨h1, h2⟩ | ⟨h1, h2, ok, h3⟩ | ⟨h1, h2, h3, h4⟩ | ⟨h1, h2, h3, h4⟩
  · refine ⟨?_, ?_, ?_⟩
    · intro lo hi p hc; rw [h2] at hc; exact Dec.noConfusion hc
    · intro lo hi p hc; rw [h2] at hc; exact Dec.noConfusion hc
    · intro hlt hlen; exact absurd hlt (Nat.not_lt.mpr h1)
  · refine ⟨?_, ?_, ?_⟩
    · intro lo hi p hc; rw [h3] at hc; exact Dec.noConfusion hc
    · intro lo hi p hc; rw [h3] at hc; exact Dec.noConfusion hc
    · intro hlt hlen; exact absurd hlen (Nat.not_le.mpr h2)
  · refine ⟨?_, ?_, fun _ _ => h4⟩
    · intro lo hi p hc; rw [h4] at hc; exact Dec.noConfusion hc
    · intro lo hi p hc; rw [h4] at hc; exact Dec.noConfusion hc
  · exact absurd h3 (Nat.not_lt.mpr hdep)

/-- Claim C3 is refuted as frozen: on the 23 element array A23 the run logs an
iteration whose frame has depth ≥ 2 * floor_log2 23 = 8 yet is handed to
insertion sort, not to the heap sorter, because its length is below 16. -/
theorem C3_cex :
    (nuTrace false false natCmp (fun _ => true) A23 23 4).any
      (fun l => decide (2 * floor_log2 23 ≤ l.frame.depth) && isIns l.dec) = true := by
  rfl

theorem C3_witness :
    (⟨⟨8, 23, 8⟩, 0, Dec.heapLimit 8 23⟩ : Log) ∈
        nuTrace false false natCmp (fun _ => true) A24 24 4
      ∧ (⟨⟨8, 23, 8⟩, 0, Dec.heapLimit 8 23⟩ : Log).dec = Dec.heapLimit 8 23 := by
  have hmem : (⟨⟨8, 23, 8⟩, 0, Dec.heapLimit 8 23⟩ : Log) ∈
      nuTrace false false natCmp (fun _ => true) A24 24 4 := by decide
  have h := C3_depth_limit natCmp (fun _ => true) A24 24 4 _ hmem (by decide)
  exact ⟨hmem, h.2.2 (by decide) (by decide)⟩

/-- Claim C4: on a range lo < hi, partition returns an index p in [lo, hi],
the value at p is the original midpoint element arr (lo + (hi - lo) / 2)
relocated to the end before the Lomuto scan, every element at or before p
compares ≤ to the pivot value, and every element after p compares >. -/
theorem C4_partition_contract (cmp : α → α → Int) (tc : TotalCmp cmp) (arr : Nat → α)
    (lo hi : Nat) (h : lo < hi) :
    (lo ≤ (partitionP cmp arr lo hi).2 ∧ (partitionP cmp arr lo hi).2 ≤ hi)
    ∧ (partitionP cmp arr lo hi).1 (partitionP cmp arr lo hi).2 = arr (lo + (hi - lo) / 2)
    ∧ (∀ k, lo ≤ k → k ≤ (partitionP cmp arr lo hi).2 →
        cmp ((partitionP cmp arr lo hi).1 k)
          ((partitionP cmp arr lo hi).1 (partitionP cmp arr lo hi).2) ≤ 0)
    ∧ (∀ k, (partitionP cmp arr lo hi).2 < k → k ≤ hi →
        0 < cmp ((partitionP cmp arr lo hi).1 k)
          ((partitionP cmp arr lo hi).1 (partitionP cmp arr lo hi).2)) := by
  rcases partition_spec cmp arr h with ⟨hb, hpv, hle, hgt, hloc, hperm⟩
  refine ⟨hb, hpv, ?_, hgt⟩
  intro k hk1 hk2
  rcases Nat.lt_or_ge k (partitionP cmp arr lo hi).2 with hlt | hge
  · exact hle k hk1 hlt
  · have hkp : k = (partitionP cmp arr lo hi).2 := by omega
    rw [hkp]
    exact tc.rfl_le _

theorem C4_witness :
    ((0 : Nat) ≤ (partitionP natCmp (arrOfList [5, 3, 8, 1, 9, 2]) 0 5).2
      ∧ (partitionP natCmp (arrOfList [5, 3, 8, 1, 9, 2]) 0 5).2 ≤ 5)
    ∧ (partitionP natCmp (arrOfList [5, 3, 8, 1, 9, 2]) 0 5).1
        (partitionP natCmp (arrOfList [5, 3, 8, 1, 9, 2]) 0 5).2
      = arrOfList [5, 3, 8, 1, 9, 2] (0 + (5 - 0) / 2) := by
  have h := C4_partition_contract natCmp natCmp_total (arrOfList [5, 3, 8, 1, 9, 2]) 0 5
    (by decide)
  exact ⟨h.1, h.2.1⟩

/-- Claim C5, amended: after partitioning a popped frame at pivot p, the driver
abandons and heap-sorts the whole range exactly when the stack occupancy after
the pushes would reach or exceed the capacity (rest + frames_to_push ≥ cap, the
code comparison top + frames_to_push >= NU_QUICKSORT_STACK_SIZE); otherwise it
pushes the non-empty children.  The frozen claim says strictly exceed, which
the counterexample C5_cex refutes: at rest + frames_to_push = cap the final
occupancy would only equal the capacity, yet the driver abandons. -/
theorem C5_capacity (cmp : α → α → Int) (oracle : Nat → Bool)
    (cap limit n fuel : Nat) (stk : List Frame) (arr : Nat → α) (t : List Log) (k : Nat)
    (hB : FramesBounded n stk) (hL : stk.length ≤ cap)
    (heq : Option.map Prod.snd (introLoop cmp oracle cap limit fuel stk arr k) = some t) :
    ∀ l ∈ t, l.frame.low < l.frame.high → 16 ≤ l.frame.high - l.frame.low + 1 →
      l.frame.depth < limit →
      ∃ p, l.frame.low ≤ p ∧ p ≤ l.frame.high
        ∧ ((cap ≤ l.rest + ftpOf l.frame.low l.frame.high p
              ∧ l.dec = Dec.heapFull l.frame.low l.frame.high p)
          ∨ (l.rest + ftpOf l.frame.low l.frame.high p < cap
              ∧ l.dec = Dec.push l.frame.low l.frame.high p)) := by
  cases hop : introLoop cmp oracle cap limit fuel stk arr k with
  | none => rw [hop] at heq; exact absurd heq (by simp)
  | some pr =>
    rw [hop] at heq
    simp only [Option.map_some', Option.some.injEq] at heq
    subst heq
    intro l hl h1 h2 h3
    have htr := introLoop_trace cmp oracle cap limit n fuel stk arr k pr.1 pr.2 hB hL
      (by rw [hop]) l hl
    rcases htr.2.2 with ⟨ha, hb⟩ | ⟨ha, hb, ok, hc⟩ | ⟨ha, hb, hc, hd⟩
      | ⟨ha, hb, hc, p, hp1, hp2, hd⟩
    · exact absurd h1 (Nat.not_lt.mpr ha)
    · exact absurd h2 (Nat.not_le.mpr hb)
    · exact absurd h3 (Nat.not_lt.mpr hc)
    · exact ⟨p, hp1, hp2, hd⟩

/-- Claim C5 is refuted as frozen: with capacity 2, on the sorted 16 element
array the first frame partitions at p = 7 with rest = 0 and frames_to_push = 2,
so pushing would make the occupancy exactly 2 = cap (not exceed it), yet the
driver abandons and heap-sorts the range. -/
theorem C5_cex :
    (introLoop natCmp (fun _ => true) 2 8 40 [⟨0, 15, 0⟩] S16 0).map
      (fun p => p.2.any (fun l =>
        (l.dec == Dec.heapFull 0 15 7) && decide (l.rest + ftpOf 0 15 7 = 2))) =
      some true := by
  rfl

theorem C5_witness : 2 ≤ (0 : Nat) + ftpOf 0 15 7 := by
  have heq : Option.map Prod.snd (introLoop natCmp (fun _ => true) 2 8 40
      [⟨0, 15, 0⟩] S16 0) = some [⟨⟨0, 15, 0⟩, 0, Dec.heapFull 0 15 7⟩] := by rfl
  have h := C5_capacity natCmp (fun _ => true) 2 8 16 40 [⟨0, 15, 0⟩] S16
      [⟨⟨0, 15, 0⟩, 0, Dec.heapFull 0 15 7⟩] 0
      (initFrames_bounded 16 (by decide)) (by decide) heq
      ⟨⟨0, 15, 0⟩, 0, Dec.heapFull 0 15 7⟩ (List.mem_singleton_self _)
      (by decide) (by decide) (by decide)
  rcases h with ⟨p, hp1, hp2, ⟨hge, hdeq⟩ | ⟨hlt, hdeq⟩⟩
  · have hdeq2 : Dec.heapFull 0 15 7 = Dec.heapFull 0 15 p := hdeq
    injection hdeq2 with e1 e2 e3
    subst e3
    exact hge
  · have hdeq2 : Dec.heapFull 0 15 7 = Dec.push 0 15 p := hdeq
    exact Dec.noConfusion hdeq2

/-- Claim C6: nu_sort terminates on every input, however adversarial the
comparator and allocation oracle: the dispatch loop pops the stack empty within
the fuel 2n + 4 and the run returns a result. -/
theorem C6_terminates (cmp : α → α → Int) (oracle : Nat → Bool) (arr : Nat → α)
    (n : Nat) : (nuRun cmp oracle arr n).isSome = true :=
  nuRun_isSome cmp oracle arr n

/-- Claim C7: a null base pointer, a null comparator, an element count of 0 or
1, or an element size of 0 each make nu_sort return immediately with the array
unchanged. -/
theorem C7_guards (cmp : α → α → Int) (oracle : Nat → Bool) (arr : Nat → α) :
    (∀ n size, nu_sort true false cmp oracle arr n size = arr)
    ∧ (∀ n size, nu_sort false true cmp oracle arr n size = arr)
    ∧ (∀ size, nu_sort false false cmp oracle arr 0 size = arr)
    ∧ (∀ size, nu_sort false false cmp oracle arr 1 size = arr)
    ∧ (∀ n, nu_sort false false cmp oracle arr n 0 = arr) := by
  refine ⟨?_, ?_, ?_, ?_, ?_⟩
  · intro n size
    unfold nu_sort
    rw [if_pos (Or.inl rfl)]
  · intro n size
    unfold nu_sort
    rw [if_pos (Or.inr (Or.inl rfl))]
  · intro size
    unfold nu_sort
    rw [if_pos (Or.inr (Or.inr (Or.inl (by omega))))]
  · intro size
    unfold nu_sort
    rw [if_pos (Or.inr (Or.inr (Or.inl (by omega))))]
  · intro n
    unfold nu_sort
    rw [if_pos (Or.inr (Or.inr (Or.inr rfl)))]

/-- Claim C8: on every input the work stack of a nu_sort call holds at most 64
frames: at each logged iteration the occupancy at the pop is at most 64, and
whenever children are pushed the occupancy after the pushes is at most 63, so
every frame store lands inside the 64 slot stack array. -/
theorem C8_stack_capacity (cmp : α → α → Int) (oracle : Nat → Bool) (arr : Nat → α)
    (n size : Nat) :
    ∀ l ∈ nuTrace false false cmp oracle arr n size,
      l.rest + 1 ≤ 64
      ∧ (∀ lo hi p, l.dec = Dec.push lo hi p → l.rest + ftpOf lo hi p ≤ 63) := by
  intro l hl
  have h := nuTrace_spec cmp oracle arr n size l hl
  refine ⟨h.2.1, ?_⟩
  intro lo hi p hdec
  rcases h.2.2 with ⟨h1, h2⟩ | ⟨h1, h2, ok, h3⟩ | ⟨h1, h2, h3, h4⟩
    | ⟨h1, h2, h3, q, hq1, hq2, ⟨hge, hdeq⟩ | ⟨hlt, hdeq⟩⟩
  · rw [h2] at hdec; exact Dec.noConfusion hdec
  · rw [h3] at hdec; exact Dec.noConfusion hdec
  · rw [h4] at hdec; exact Dec.noConfusion hdec
  · rw [hdeq] at hdec; exact Dec.noConfusion hdec
  · rw [hdeq] at hdec
    injection hdec with e1 e2 e3
    subst e1; subst e2; subst e3
    omega

theorem C8_witness :
    (0 : Nat) + 1 ≤ 64 ∧ (0 : Nat) + ftpOf 0 19 9 ≤ 63 := by
  have hmem : (⟨⟨0, 19, 0⟩, 0, Dec.push 0 19 9⟩ : Log) ∈
      nuTrace false false natCmp (fun _ => true) S20 20 4 := by decide
  have h := C8_stack_capacity natCmp (fun _ => true) S20 20 4 _ hmem
  exact ⟨h.1, h.2 0 19 9 rfl⟩

/-- Claim C9: a failed buffer allocation makes insertion_sort return its range
untouched and signals no error, the run still completes, and every range whose
insertion call did get a buffer is sorted in the final array: one failed
allocation yields a partially sorted array, not an aborted call. -/
theorem C9_alloc_failure (cmp : α → α → Int) (tc : TotalCmp cmp) (oracle : Nat → Bool)
    (arr : Nat → α) (n size : Nat) :
    (∀ (a : Nat → α) lo hi, insertion_sort cmp false a lo hi = a)
    ∧ (nuRun cmp oracle arr n).isSome = true
    ∧ (∀ l ∈ nuTrace false false cmp oracle arr n size, ∀ lo hi,
        l.dec = Dec.ins lo hi true →
        SortedRange cmp (nu_sort false false cmp oracle arr n size) lo hi) := by
  refine ⟨fun a lo hi => insertion_sort_fail cmp a lo hi,
    nuRun_isSome cmp oracle arr n, ?_⟩
  by_cases hg : (false : Bool) = true ∨ (false : Bool) = true ∨ n ≤ 1 ∨ size = 0
  · intro l hl
    unfold nuTrace at hl
    rw [if_pos hg] at hl
    exact absurd hl (List.not_mem_nil l)
  · obtain ⟨hn, hs⟩ := guard_bounds hg
    have heq : introLoop cmp oracle 64 (2 * floor_log2 n) (nuFuel n) [⟨0, n - 1, 0⟩] arr 0
        = some (nu_sort false false cmp oracle arr n size,
                nuTrace false false cmp oracle arr n size) :=
      nuRun_parts cmp oracle arr n size hn hs
    intro l hl lo hi hdec
    exact introLoop_ins_sorted cmp tc oracle 64 (2 * floor_log2 n) n (nuFuel n)
      [⟨0, n - 1, 0⟩] arr 0 _ _ (initFrames_bounded n (by omega)) (initFrames_disj _)
      heq l hl lo hi hdec

theorem C9_witness :
    natCmp (nu_sort false false natCmp (fun _ => true) (arrOfList [5, 3]) 2 4 0)
      (nu_sort false false natCmp (fun _ => true) (arrOfList [5, 3]) 2 4 1) ≤ 0 := by
  have h := (C9_alloc_failure natCmp natCmp_total (fun _ => true)
      (arrOfList [5, 3]) 2 4).2.2
  have hmem : (⟨⟨0, 1, 0⟩, 0, Dec.ins 0 1 true⟩ : Log) ∈
      nuTrace false false natCmp (fun _ => true) (arrOfList [5, 3]) 2 4 := by decide
  exact h _ hmem 0 1 rfl 0 (by decide) (by decide)

/-- Claim C10: every logged heap-sort call (depth limit or capacity fallback)
is on a range of length ≥ 16 and every insertion-sort call is on a range of
length 2..15, all within array bounds (high < n); the size_t expressions
count - 2 and count - 1 of heapsort never wrap for such counts; and heapsort,
a successful insertion_sort, and partition write only inside [lo, hi]. -/
theorem C10_dispatch_safety (cmp : α → α → Int) (oracle : Nat → Bool) (arr : Nat → α)
    (n size : Nat) :
    (∀ l ∈ nuTrace false false cmp oracle arr n size,
        (∀ lo hi ok, l.dec = Dec.ins lo hi ok →
          lo < hi ∧ hi - lo + 1 < 16 ∧ hi < n)
        ∧ (∀ lo hi, l.dec = Dec.heapLimit lo hi →
          lo < hi ∧ 16 ≤ hi - lo + 1 ∧ hi < n)
        ∧ (∀ lo hi p, l.dec = Dec.heapFull lo hi p →
          lo < hi ∧ 16 ≤ hi - lo + 1 ∧ hi < n))
    ∧ (∀ c, 2 ≤ c → c < 2 ^ 64 → sizetSub c 2 = c - 2 ∧ sizetSub c 1 = c - 1)
    ∧ (∀ (a : Nat → α) lo hi i, lo < hi → (i < lo ∨ hi < i) →
        heapsort cmp a lo hi i = a i
        ∧ insertion_sort cmp true a lo hi i = a i
        ∧ (partitionP cmp a lo hi).1 i = a i) := by
  refine ⟨?_, ?_, ?_⟩
  · intro l hl
    have h := nuTrace_spec cmp oracle arr n size l hl
    have hn := h.1
    refine ⟨?_, ?_, ?_⟩
    · intro lo hi ok hdec
      rcases h.2.2 with ⟨h1, h2⟩ | ⟨h1, h2, ok2, h3⟩ | ⟨h1, h2, h3, h4⟩
        | ⟨h1, h2, h3, q, hq1, hq2, ⟨hge, hdeq⟩ | ⟨hlt, hdeq⟩⟩
      · rw [h2] at hdec; exact Dec.noConfusion hdec
      · rw [h3] at hdec
        injection hdec with e1 e2 e3
        subst e1; subst e2
        exact ⟨h1, h2, hn⟩
      · rw [h4] at hdec; exact Dec.noConfusion hdec
      · rw [hdeq] at hdec; exact Dec.noConfusion hdec
      · rw [hdeq] at hdec; exact Dec.noConfusion hdec
    · intro lo hi hdec
      rcases h.2.2 with ⟨h1, h2⟩ | ⟨h1, h2, ok2, h3⟩ | ⟨h1, h2, h3, h4⟩
        | ⟨h1, h2, h3, q, hq1, hq2, ⟨hge, hdeq⟩ | ⟨hlt, hdeq⟩⟩
      · rw [h2] at hdec; exact Dec.noConfusion hdec
      · rw [h3] at hdec; exact Dec.noConfusion hdec
      · rw [h4] at hdec
        injection hdec with e1 e2
        subst e1; subst e2
        exact ⟨h1, h2, hn⟩
      · rw [hdeq] at hdec; exact Dec.noConfusion hdec
      · rw [hdeq] at hdec; exact Dec.noConfusion hdec
    · intro lo hi p hdec
      rcases h.2.2 with ⟨h1, h2⟩ | ⟨h1, h2, ok2, h3⟩ | ⟨h1, h2, h3, h4⟩
        | ⟨h1, h2, h3, q, hq1, hq2, ⟨hge, hdeq⟩ | ⟨hlt, hdeq⟩⟩
      · rw [h2] at hdec; exact Dec.noConfusion hdec
      · rw [h3] at hdec; exact Dec.noConfusion hdec
      · rw [h4] at hdec; exact Dec.noConfusion hdec
      · rw [hdeq] at hdec
        injection hdec with e1 e2 e3
        subst e1; subst e2
        exact ⟨h1, h2, hn⟩
      · rw [hdeq] at hdec; exact Dec.noConfusion hdec
  · intro c h2 hlt
    have hlt2 : c < 18446744073709551616 := hlt
    constructor
    · show (c + 18446744073709551616 - 2) % 18446744073709551616 = c - 2
      omega
    · show (c + 18446744073709551616 - 1) % 18446744073709551616 = c - 1
      omega
  · intro a lo hi i hlh hout
    refine ⟨(heapsort_permloc cmp a hlh).1 i hout,
      (insertion_sort_permloc cmp true a lo hi).1 i hout, ?_⟩
    rcases partition_spec cmp a hlh with ⟨hb, hpv, hle, hgt, hloc, hperm⟩
    exact hloc i hout

theorem C10_witness :
    ((10 : Nat) < 19 ∧ (19 : Nat) - 10 + 1 < 16 ∧ (19 : Nat) < 20)
    ∧ sizetSub 16 2 = 14 ∧ sizetSub 16 1 = 15 := by
  have hmem : (⟨⟨10, 19, 1⟩, 1, Dec.ins 10 19 true⟩ : Log) ∈
      nuTrace false false natCmp (fun _ => true) S20 20 4 := by decide
  have h := C10_dispatch_safety natCmp (fun _ => true) S20 20 4
  have h1 := (h.1 _ hmem).1 10 19 true rfl
  have h2 := h.2.1 16 (by decide) (by decide)
  exact ⟨h1, h2.1, h2.2⟩

end Nu
